import Mathlib

/-!
Verification of the core numeric routines of the BA_Tools pyRevit scripts.

Each definition is a shallow embedding of a routine from the repository:
natural/alphanumeric Mark sorting (`alphanum_key` in the two
Comments Value `script.py` files), wall/slab split-position computation and
gap insertion (`WallFromLine_script.py`, `SlabFromLine_script.py`), grid
classification (`GridAnnotation_script.py`), erection-mark angle
normalization (`RotateAssemblies_script.py`), and the per-item
transaction/summary control flow of the scripts.

Strings are embedded as `List Char`, Python ints as `Nat`/`Int`, and the
floating point quantities of the geometric routines as exact rationals
(`ℚ`) or reals (`ℝ`); fallible steps are modelled by explicit outcome
flags.
-/

namespace BATools

/-! ## Natural / alphanumeric sort key

Embedding of

    _digits_re = re.compile(r'(\d+)')
    def alphanum_key(s):
        parts = _digits_re.split(s)
        key = []
        for p in parts:
            if p.isdigit():
                key.append(int(p))
            else:
                key.append(p.lower())
        return tuple(key)

from `Automation.tab/.../Comments Value.pushbutton/script.py` (an identical
inline copy lives in `BA_Tools.tab/.../Comments Value.pushbutton/script.py`).
`re.split` on the capturing group `(\d+)` cuts the string at every maximal
run of decimal digits and keeps the runs, producing an odd-length list
that starts and ends with a (possibly empty) digit-free chunk and strictly
alternates digit-free chunk / digit run.  `SplitRes` stores exactly that
shape: the leading digit-free chunk plus a list of (digit run, following
digit-free chunk) pairs. -/

/-- Result of splitting a string at maximal digit runs: the leading
digit-free chunk, then (digit run, following digit-free chunk) pairs. -/
structure SplitRes where
  head : List Char
  tail : List (List Char × List Char)
deriving DecidableEq, Repr

/-- Embedding of `re.split(r'(\d+)', s)`: split at maximal runs of
decimal digits, keeping the runs.  Processing char by char from the left:
a digit either merges into the digit run that starts immediately after it
or opens a fresh run; a non-digit extends the leading chunk. -/
def splitDigitsS : List Char → SplitRes
  | [] => ⟨[], []⟩
  | c :: rest =>
    let r := splitDigitsS rest
    if c.isDigit then
      match r.head, r.tail with
      | [], (d, nd) :: t => ⟨[], (c :: d, nd) :: t⟩
      | h, t => ⟨[], ([c], h) :: t⟩
    else
      ⟨c :: r.head, r.tail⟩

/-- Flatten the (digit run, digit-free chunk) pairs back into the flat
chunk list that `re.split` returns. -/
def pairChunks : List (List Char × List Char) → List (List Char)
  | [] => []
  | (d, nd) :: t => d :: nd :: pairChunks t

/-- The flat list of chunks produced by `re.split(r'(\d+)', s)`. -/
def splitDigits (s : List Char) : List (List Char) :=
  (splitDigitsS s).head :: pairChunks (splitDigitsS s).tail

/-- One component of the Python sort key: either a lowercased text chunk
or the integer value of a digit run. -/
inductive Chunk where
  | s (cs : List Char)
  | n (v : Nat)
deriving DecidableEq, Repr

/-- Python `str.isdigit()` on the ASCII fragment: nonempty and all
decimal digits. -/
def pyIsDigit (cs : List Char) : Bool :=
  !cs.isEmpty && cs.all Char.isDigit

/-- Python `int(p)` on a decimal digit string: most-significant-first
fold. -/
def chunkVal (cs : List Char) : Nat :=
  cs.foldl (fun a c => 10 * a + (c.toNat - 48)) 0

/-- Conversion of one chunk: `int(p) if p.isdigit() else p.lower()`. -/
def convChunk (p : List Char) : Chunk :=
  if pyIsDigit p then .n (chunkVal p) else .s (p.map Char.toLower)

/-- The `alphanum_key` function: split at digit runs, numbers become
integers, text chunks are lowercased. -/
def alphanum_key (s : List Char) : List Chunk :=
  (splitDigits s).map convChunk

/-- Python string `<`: lexicographic by character code. -/
def strLtb : List Char → List Char → Bool
  | [], [] => false
  | [], _ :: _ => true
  | _ :: _, [] => false
  | a :: as, b :: bs => if a = b then strLtb as bs else decide (a.toNat < b.toNat)

/-- Python 2 `<` on key components: ints numerically, strings
lexicographically, and any int sorts before any string (the scripts run
under IronPython 2.7, where mixed int/str comparison is defined). -/
def chunkLtb : Chunk → Chunk → Bool
  | .n a, .n b => decide (a < b)
  | .s a, .s b => strLtb a b
  | .n _, .s _ => true
  | .s _, .n _ => false

/-- Python tuple `<` on sort keys: lexicographic, shorter tuple first on
a common front. -/
def keyLtb : List Chunk → List Chunk → Bool
  | [], [] => false
  | [], _ :: _ => true
  | _ :: _, [] => false
  | a :: as, b :: bs => if a = b then keyLtb as bs else chunkLtb a b

/-- Decimal digit character for a value below ten. -/
def toDigitChar (d : Nat) : Char := Char.ofNat (48 + d)

/-- Python `str(m)` for a natural number: standard decimal notation with
no leading zeros (and `"0"` for zero). -/
def natChars (n : Nat) : List Char :=
  if n = 0 then ['0'] else ((Nat.digits 10 n).reverse).map toDigitChar

/-! ### Structure lemmas for the digit-run splitter -/

theorem strLtb_irrefl (a : List Char) : strLtb a a = false := by
  induction a with
  | nil => rfl
  | cons c cs ih => simp [strLtb, ih]

theorem chunkLtb_irrefl (x : Chunk) : chunkLtb x x = false := by
  cases x with
  | s cs => simp [chunkLtb, strLtb_irrefl]
  | n v => simp [chunkLtb]

theorem chunkLtb_ne {x y : Chunk} (h : chunkLtb x y = true) : x ≠ y := by
  intro e
  rw [e, chunkLtb_irrefl] at h
  exact Bool.false_ne_true h

theorem keyLtb_append (A : List Chunk) {x y : Chunk} (B C : List Chunk)
    (h : chunkLtb x y = true) :
    keyLtb (A ++ x :: B) (A ++ y :: C) = true := by
  induction A with
  | nil => simpa [keyLtb, if_neg (chunkLtb_ne h)] using h
  | cons a A ih => simpa [keyLtb] using ih

theorem splitDigitsS_cons_nondigit {c : Char} (h : c.isDigit = false) (rest : List Char) :
    splitDigitsS (c :: rest) =
      ⟨c :: (splitDigitsS rest).head, (splitDigitsS rest).tail⟩ := by
  simp [splitDigitsS, h]

theorem splitDigitsS_cons_digit_merge {c : Char} {rest d nd : List Char}
    {t : List (List Char × List Char)} (h : c.isDigit = true)
    (hr : splitDigitsS rest = ⟨[], (d, nd) :: t⟩) :
    splitDigitsS (c :: rest) = ⟨[], (c :: d, nd) :: t⟩ := by
  simp [splitDigitsS, h, hr]

theorem splitDigitsS_cons_digit_new {c : Char} {rest h₀ : List Char} {hs : Char}
    (h : c.isDigit = true) (hr : (splitDigitsS rest).head = hs :: h₀) :
    splitDigitsS (c :: rest) =
      ⟨[], ([c], (splitDigitsS rest).head) :: (splitDigitsS rest).tail⟩ := by
  simp only [splitDigitsS, h, if_true]
  rw [hr]

theorem splitDigitsS_cons_digit_empty {c : Char} {rest : List Char}
    (h : c.isDigit = true) (hr : splitDigitsS rest = ⟨[], []⟩) :
    splitDigitsS (c :: rest) = ⟨[], ([c], []) :: []⟩ := by
  simp [splitDigitsS, h, hr]

theorem splitDigitsS_cons_digit_shape {c : Char} (rest : List Char)
    (h : c.isDigit = true) :
    ∃ d nd t, splitDigitsS (c :: rest) = ⟨[], (d, nd) :: t⟩ := by
  simp only [splitDigitsS, h, if_true]
  rcases e : splitDigitsS rest with ⟨hd, tl⟩
  cases hd with
  | nil =>
    cases tl with
    | nil => exact ⟨[c], [], [], rfl⟩
    | cons p t => exact ⟨c :: p.1, p.2, t, rfl⟩
  | cons x xs => exact ⟨[c], x :: xs, tl, rfl⟩

/-- Splitting a pure digit run followed by a string that does not start
with a digit: the run becomes a single captured chunk. -/
theorem splitDigitsS_digits_append {w S : List Char} (hw : w ≠ [])
    (hwd : ∀ c ∈ w, c.isDigit = true)
    (hS : ∀ c, S.head? = some c → c.isDigit = false) :
    splitDigitsS (w ++ S) =
      ⟨[], (w, (splitDigitsS S).head) :: (splitDigitsS S).tail⟩ := by
  induction w with
  | nil => exact absurd rfl hw
  | cons c w ih =>
    have hc : c.isDigit = true := hwd c (by simp)
    cases w with
    | nil =>
      cases S with
      | nil =>
        have hnil : splitDigitsS ([] : List Char) = ⟨[], []⟩ := rfl
        simpa [splitDigitsS] using splitDigitsS_cons_digit_empty hc hnil
      | cons s₀ S' =>
        have hs₀ : s₀.isDigit = false := hS s₀ rfl
        have hhead : (splitDigitsS (s₀ :: S')).head = s₀ :: (splitDigitsS S').head := by
          rw [splitDigitsS_cons_nondigit hs₀]
        simpa using splitDigitsS_cons_digit_new hc hhead
    | cons c' w' =>
      have hrec := ih (by simp) (fun x hx => hwd x (by simp [hx]))
      simpa using splitDigitsS_cons_digit_merge hc hrec

/-- Main decomposition lemma: splitting `P ++ w ++ S` where `P` does not
end with a digit, `w` is a nonempty digit run, and `S` does not start
with a digit, concatenates the chunk structures with `w` as one captured
run in the middle. -/
theorem splitDigitsS_append (P : List Char) {w S : List Char}
    (hP : ∀ c, P.getLast? = some c → c.isDigit = false)
    (hw : w ≠ []) (hwd : ∀ c ∈ w, c.isDigit = true)
    (hS : ∀ c, S.head? = some c → c.isDigit = false) :
    splitDigitsS (P ++ w ++ S) =
      ⟨(splitDigitsS P).head,
        (splitDigitsS P).tail ++
          (w, (splitDigitsS S).head) :: (splitDigitsS S).tail⟩ := by
  induction P with
  | nil =>
    simpa using splitDigitsS_digits_append hw hwd hS
  | cons c P ih =>
    by_cases hc : c.isDigit
    · cases P with
      | nil =>
        have : c.isDigit = false := hP c (by simp)
        rw [this] at hc
        exact absurd hc (by simp)
      | cons p₀ P'' =>
        have hP' : ∀ x, (p₀ :: P'').getLast? = some x → x.isDigit = false := by
          intro x hx
          exact hP x (by rwa [List.getLast?_cons_cons])
        have hrec := ih hP'
        by_cases hp₀ : p₀.isDigit
        · obtain ⟨d, nd, t, hshape⟩ := splitDigitsS_cons_digit_shape P'' hp₀
          have hmid : splitDigitsS ((p₀ :: P'') ++ w ++ S) =
              ⟨[], (d, nd) ::
                (t ++ (w, (splitDigitsS S).head) :: (splitDigitsS S).tail)⟩ := by
            rw [hrec, hshape]
            rfl
          have lhs := splitDigitsS_cons_digit_merge hc hmid
          have rhs := splitDigitsS_cons_digit_merge hc hshape
          have hassoc : (c :: p₀ :: P'') ++ w ++ S = c :: ((p₀ :: P'') ++ w ++ S) := by
            simp
          rw [hassoc, lhs, rhs]
          simp
        · have hhead : (splitDigitsS (p₀ :: P'')).head = p₀ :: (splitDigitsS P'').head := by
            rw [splitDigitsS_cons_nondigit (by simpa using hp₀)]
          have hheadMid : (splitDigitsS ((p₀ :: P'') ++ w ++ S)).head =
              p₀ :: (splitDigitsS P'').head := by
            rw [hrec]
            exact hhead
          have lhs := splitDigitsS_cons_digit_new hc hheadMid
          have rhs := splitDigitsS_cons_digit_new hc hhead
          have hassoc : (c :: p₀ :: P'') ++ w ++ S = c :: ((p₀ :: P'') ++ w ++ S) := by
            simp
          rw [hassoc, lhs, rhs, hrec]
          simp
    · have hP' : ∀ x, P.getLast? = some x → x.isDigit = false := by
        intro x hx
        cases P with
        | nil => simp at hx
        | cons q Q => exact hP x (by rwa [List.getLast?_cons_cons])
      have hrec := ih hP'
      have lhs : splitDigitsS (c :: P ++ w ++ S) =
          ⟨c :: (splitDigitsS (P ++ w ++ S)).head, (splitDigitsS (P ++ w ++ S)).tail⟩ := by
        simpa using splitDigitsS_cons_nondigit (by simpa using hc) (P ++ w ++ S)
      rw [lhs, hrec, splitDigitsS_cons_nondigit (by simpa using hc) P]

example : splitDigits ['I', 'P', 'P', '-', '1', '2'] =
    [['I', 'P', 'P', '-'], ['1', '2'], []] := by decide

example : alphanum_key ['I', 'P', 'P', '-', '1', '2'] =
    [.s ['i', 'p', 'p', '-'], .n 12, .s []] := by decide

example : keyLtb (alphanum_key ['A', '2']) (alphanum_key ['a', '1', '0']) = true := by
  decide

theorem pairChunks_append (A B : List (List Char × List Char)) :
    pairChunks (A ++ B) = pairChunks A ++ pairChunks B := by
  induction A with
  | nil => rfl
  | cons p t ih => simp [pairChunks, ih]

/-- Chunk-level form of the decomposition lemma. -/
theorem splitDigits_append (P : List Char) {w S : List Char}
    (hP : ∀ c, P.getLast? = some c → c.isDigit = false)
    (hw : w ≠ []) (hwd : ∀ c ∈ w, c.isDigit = true)
    (hS : ∀ c, S.head? = some c → c.isDigit = false) :
    splitDigits (P ++ w ++ S) = splitDigits P ++ w :: splitDigits S := by
  unfold splitDigits
  rw [splitDigitsS_append P hP hw hwd hS]
  simp [pairChunks_append, pairChunks]

/-- Key-level form of the decomposition lemma. -/
theorem alphanum_key_append (P : List Char) {w S : List Char}
    (hP : ∀ c, P.getLast? = some c → c.isDigit = false)
    (hw : w ≠ []) (hwd : ∀ c ∈ w, c.isDigit = true)
    (hS : ∀ c, S.head? = some c → c.isDigit = false) :
    alphanum_key (P ++ w ++ S) =
      alphanum_key P ++ convChunk w :: alphanum_key S := by
  unfold alphanum_key
  rw [splitDigits_append P hP hw hwd hS]
  simp

theorem pyIsDigit_of_all {w : List Char} (hw : w ≠ [])
    (hwd : ∀ c ∈ w, c.isDigit = true) : pyIsDigit w = true := by
  cases w with
  | nil => exact absurd rfl hw
  | cons c cs =>
    simp only [pyIsDigit, List.isEmpty_cons, Bool.not_false, Bool.true_and,
      List.all_eq_true]
    exact fun x hx => hwd x hx

theorem convChunk_digit {w : List Char} (hw : w ≠ [])
    (hwd : ∀ c ∈ w, c.isDigit = true) : convChunk w = .n (chunkVal w) := by
  simp [convChunk, pyIsDigit_of_all hw hwd]

/-! ### Decimal value arithmetic -/

theorem chunkVal_foldl (y : List Char) :
    ∀ a : Nat, y.foldl (fun a c => 10 * a + (c.toNat - 48)) a =
      a * 10 ^ y.length + chunkVal y := by
  induction y with
  | nil => intro a; simp [chunkVal]
  | cons c y ih =>
    intro a
    have h₁ := ih (10 * a + (c.toNat - 48))
    have h₂ := ih (c.toNat - 48)
    simp only [List.foldl_cons, chunkVal, Nat.mul_zero, Nat.zero_add,
      List.length_cons] at *
    rw [h₁, h₂]
    ring

theorem chunkVal_append (x y : List Char) :
    chunkVal (x ++ y) = chunkVal x * 10 ^ y.length + chunkVal y := by
  unfold chunkVal
  rw [List.foldl_append]
  exact chunkVal_foldl y _

theorem digit_toNat_sub_lt {c : Char} (h : c.isDigit = true) : c.toNat - 48 < 10 := by
  simp only [Char.isDigit, decide_eq_true_eq, Bool.and_eq_true] at h
  have h₁ : 48 ≤ c.toNat := by
    simpa using h.1
  have h₂ : c.toNat ≤ 57 := by
    simpa using h.2
  omega

theorem chunkVal_lt_pow {x : List Char} (hx : ∀ c ∈ x, c.isDigit = true) :
    chunkVal x < 10 ^ x.length := by
  induction x with
  | nil => simp [chunkVal]
  | cons c x ih =>
    have hc := digit_toNat_sub_lt (hx c (by simp))
    have hrest := ih (fun a ha => hx a (by simp [ha]))
    have : chunkVal (c :: x) = (c.toNat - 48) * 10 ^ x.length + chunkVal x := by
      have := chunkVal_append [c] x
      simpa [chunkVal] using this
    rw [this]
    have h1 : (c.toNat - 48) * 10 ^ x.length + chunkVal x <
        (c.toNat - 48) * 10 ^ x.length + 10 ^ x.length := by omega
    have h2 : (c.toNat - 48) * 10 ^ x.length + 10 ^ x.length =
        (c.toNat - 48 + 1) * 10 ^ x.length := by ring
    have h3 : (c.toNat - 48 + 1) * 10 ^ x.length ≤ 10 * 10 ^ x.length :=
      Nat.mul_le_mul_right _ (by omega)
    calc (c.toNat - 48) * 10 ^ x.length + chunkVal x
        < (c.toNat - 48 + 1) * 10 ^ x.length := by omega
      _ ≤ 10 * 10 ^ x.length := h3
      _ = 10 ^ (x.length + 1) := by ring
      _ = 10 ^ (c :: x).length := by simp

/-! ### Properties of the decimal representation `natChars` -/

theorem toDigitChar_isDigit {d : Nat} (h : d < 10) : (toDigitChar d).isDigit = true := by
  interval_cases d <;> decide

theorem toDigitChar_toNat {d : Nat} (h : d < 10) : (toDigitChar d).toNat = 48 + d := by
  interval_cases d <;> decide

theorem natChars_ne_nil (n : Nat) : natChars n ≠ [] := by
  unfold natChars
  split
  · simp
  · simp [Nat.digits_ne_nil_iff_ne_zero, *]

theorem natChars_all_digit (n : Nat) : ∀ c ∈ natChars n, c.isDigit = true := by
  unfold natChars
  split
  · intro c hc
    simp at hc
    subst hc
    decide
  · intro c hc
    simp only [List.mem_map, List.mem_reverse] at hc
    obtain ⟨d, hd, rfl⟩ := hc
    exact toDigitChar_isDigit (Nat.digits_lt_base (by norm_num) hd)

theorem chunkVal_map_rev (l : List Nat) (hl : ∀ d ∈ l, d < 10) :
    chunkVal ((l.reverse).map toDigitChar) = Nat.ofDigits 10 l := by
  induction l with
  | nil => simp [chunkVal]
  | cons d l ih =>
    have hd := hl d (by simp)
    have hrest := ih (fun a ha => hl a (by simp [ha]))
    rw [List.reverse_cons, List.map_append, chunkVal_append]
    have hsing : chunkVal (List.map toDigitChar [d]) = d := by
      simp [chunkVal, toDigitChar_toNat hd]
    rw [hsing, hrest]
    simp only [Nat.ofDigits_cons, List.length_map, List.length_cons,
      List.length_nil, pow_one]
    ring

theorem chunkVal_natChars (n : Nat) : chunkVal (natChars n) = n := by
  unfold natChars
  split
  · subst n
    decide
  · rw [chunkVal_map_rev _ (fun d hd => Nat.digits_lt_base (by norm_num) hd)]
    exact Nat.ofDigits_digits 10 n

theorem natChars_length_mono {m n : Nat} (h : m ≤ n) :
    (natChars m).length ≤ (natChars n).length := by
  rcases Nat.eq_zero_or_pos n with hn | hn
  · subst hn
    simp_all [natChars]
  rcases Nat.eq_zero_or_pos m with hm | hm
  · subst hm
    have hne := natChars_ne_nil n
    have : 1 ≤ (natChars n).length := by
      cases e : natChars n with
      | nil => exact absurd e hne
      | cons a l => simp
    simpa [natChars]
  have hm' : m ≠ 0 := Nat.pos_iff_ne_zero.mp hm
  have hn' : n ≠ 0 := Nat.pos_iff_ne_zero.mp hn
  simp only [natChars, if_neg hm', if_neg hn', List.length_map, List.length_reverse]
  exact Nat.le_digits_len_le 10 m n h

theorem natChars_lt_pow_length (m : Nat) : m < 10 ^ (natChars m).length := by
  rcases Nat.eq_zero_or_pos m with hm | hm
  · subst hm
    simp [natChars]
  have hm' : m ≠ 0 := Nat.pos_iff_ne_zero.mp hm
  simp only [natChars, if_neg hm', List.length_map, List.length_reverse]
  exact Nat.lt_base_pow_length_digits (by norm_num)

/-- Core monotonicity: prefixing the same digit string and suffixing the
same digit string preserves strict order of the decimal values. -/
theorem middle_val_lt (a t : List Char) {m n : Nat} (h : m < n) :
    chunkVal (a ++ natChars m ++ t) < chunkVal (a ++ natChars n ++ t) := by
  have hA := chunkVal_append a (natChars m ++ t)
  have hA' := chunkVal_append a (natChars n ++ t)
  have hm1 := chunkVal_append (natChars m) t
  have hn1 := chunkVal_append (natChars n) t
  set A := chunkVal a with hAdef
  set T := chunkVal t with hTdef
  set Lm := (natChars m).length with hLm
  set Ln := (natChars n).length with hLn
  have hlen : Lm ≤ Ln := natChars_length_mono (le_of_lt h)
  have hmval : chunkVal (natChars m) = m := chunkVal_natChars m
  have hnval : chunkVal (natChars n) = n := chunkVal_natChars n
  have hmlt : m < 10 ^ Lm := natChars_lt_pow_length m
  -- reduce to the leading part
  have key : A * 10 ^ Lm + m < A * 10 ^ Ln + n := by
    rcases Nat.eq_zero_or_pos A with hA0 | hA0
    · rw [hA0]
      simpa using h
    rcases lt_or_eq_of_le hlen with hlt | heq
    · have s₁ : A * 10 ^ Lm + m < (A + 1) * 10 ^ Lm := by
        have : (A + 1) * 10 ^ Lm = A * 10 ^ Lm + 10 ^ Lm := by ring
        omega
      have s₂ : (A + 1) * 10 ^ Lm ≤ (10 * A) * 10 ^ Lm :=
        Nat.mul_le_mul_right _ (by omega)
      have s₃ : (10 * A) * 10 ^ Lm = A * 10 ^ (Lm + 1) := by ring
      have s₄ : A * 10 ^ (Lm + 1) ≤ A * 10 ^ Ln :=
        Nat.mul_le_mul_left _ (Nat.pow_le_pow_right (by norm_num) (by omega))
      omega
    · rw [heq]
      omega
  -- lift through the common digit suffix t
  have hmono : (A * 10 ^ Lm + m) * 10 ^ t.length + T <
      (A * 10 ^ Ln + n) * 10 ^ t.length + T := by
    have hp : 0 < 10 ^ t.length := Nat.pos_pow_of_pos _ (by norm_num)
    have := Nat.mul_lt_mul_of_lt_of_le key (le_refl (10 ^ t.length)) hp
    omega
  calc chunkVal (a ++ natChars m ++ t)
      = (A * 10 ^ Lm + m) * 10 ^ t.length + T := by
        rw [List.append_assoc, hA, hm1, hmval]
        simp only [List.length_append]
        ring
    _ < (A * 10 ^ Ln + n) * 10 ^ t.length + T := hmono
    _ = chunkVal (a ++ natChars n ++ t) := by
        rw [List.append_assoc, hA', hn1, hnval]
        simp only [List.length_append]
        ring

/-! ### Decomposing an arbitrary mark around an inserted number -/

/-- Maximal digit-run suffix of a string. -/
def tDig (p : List Char) : List Char := (p.reverse.takeWhile Char.isDigit).reverse

/-- The string with its maximal digit-run suffix removed. -/
def tRest (p : List Char) : List Char := (p.reverse.dropWhile Char.isDigit).reverse

theorem tRest_append_tDig (p : List Char) : tRest p ++ tDig p = p := by
  unfold tRest tDig
  rw [← List.reverse_append, List.takeWhile_append_dropWhile, List.reverse_reverse]

theorem tDig_all_digit (p : List Char) : ∀ c ∈ tDig p, c.isDigit = true := by
  intro c hc
  rw [tDig, List.mem_reverse] at hc
  exact List.mem_takeWhile_imp hc

theorem tRest_getLast (p : List Char) :
    ∀ c, (tRest p).getLast? = some c → c.isDigit = false := by
  intro c hc
  rw [tRest, List.getLast?_reverse] at hc
  have hne : p.reverse.dropWhile Char.isDigit ≠ [] := by
    intro e
    rw [e] at hc
    simp at hc
  rw [List.head?_eq_head hne] at hc
  have := List.head_dropWhile_not Char.isDigit p.reverse hne
  rwa [Option.some_inj.mp hc] at this

theorem hRest_head (s : List Char) :
    ∀ c, (s.dropWhile Char.isDigit).head? = some c → c.isDigit = false := by
  intro c hc
  have hne : s.dropWhile Char.isDigit ≠ [] := by
    intro e
    rw [e] at hc
    simp at hc
  rw [List.head?_eq_head hne] at hc
  have := List.head_dropWhile_not Char.isDigit s hne
  rwa [Option.some_inj.mp hc] at this

/-- C1.  Sorting Mark strings by `alphanum_key` yields natural order: for
every common front `p`, common back `s`, and naturals `m < n`, the mark
`p ++ str m ++ s` sorts strictly before `p ++ str n ++ s` under the
Python tuple comparison of the keys. -/
theorem alphanum_key_natural_order (p s : List Char) (m n : Nat) (h : m < n) :
    keyLtb (alphanum_key (p ++ natChars m ++ s))
      (alphanum_key (p ++ natChars n ++ s)) = true := by
  have hdecomp : ∀ k : Nat, p ++ natChars k ++ s =
      tRest p ++ (tDig p ++ natChars k ++ s.takeWhile Char.isDigit) ++
        s.dropWhile Char.isDigit := by
    intro k
    conv_lhs =>
      rw [← tRest_append_tDig p,
        ← List.takeWhile_append_dropWhile Char.isDigit s]
    simp [List.append_assoc]
  have hw : ∀ k : Nat, tDig p ++ natChars k ++ s.takeWhile Char.isDigit ≠ [] := by
    intro k hk
    rcases List.append_eq_nil.mp hk with ⟨hk₁, _⟩
    rcases List.append_eq_nil.mp hk₁ with ⟨_, hk₃⟩
    exact natChars_ne_nil k hk₃
  have hwd : ∀ k : Nat, ∀ c ∈ tDig p ++ natChars k ++ s.takeWhile Char.isDigit,
      c.isDigit = true := by
    intro k c hc
    rcases List.mem_append.mp hc with hc' | hc'
    · rcases List.mem_append.mp hc' with hc'' | hc''
      · exact tDig_all_digit p c hc''
      · exact natChars_all_digit k c hc''
    · exact List.mem_takeWhile_imp hc'
  rw [hdecomp m, hdecomp n,
    alphanum_key_append (tRest p) (tRest_getLast p) (hw m) (hwd m) (hRest_head s),
    alphanum_key_append (tRest p) (tRest_getLast p) (hw n) (hwd n) (hRest_head s),
    convChunk_digit (hw m) (hwd m), convChunk_digit (hw n) (hwd n)]
  apply keyLtb_append
  simpa [chunkLtb] using middle_val_lt (tDig p) (s.takeWhile Char.isDigit) h

/-- Witness for C1: the mark IPP-2 sorts strictly before IPP-10. -/
theorem alphanum_key_natural_order_witness :
    2 < 10 ∧
      keyLtb (alphanum_key (['I', 'P', 'P', '-'] ++ natChars 2 ++ []))
        (alphanum_key (['I', 'P', 'P', '-'] ++ natChars 10 ++ [])) = true :=
  ⟨by norm_num, alphanum_key_natural_order ['I', 'P', 'P', '-'] [] 2 10 (by norm_num)⟩

/-! ### Shape of the key: strict alternation text / number -/

/-- A key alternates: text chunks at even positions, integer chunks at
odd positions, starting and ending with a text chunk. -/
inductive Alternating : List Chunk → Prop
  | single (cs : List Char) : Alternating [.s cs]
  | cons (cs : List Char) (v : Nat) (rest : List Chunk) :
      Alternating rest → Alternating (.s cs :: .n v :: rest)

/-- Whether a key component is an integer chunk. -/
def Chunk.isNum : Chunk → Bool
  | .n _ => true
  | .s _ => false

theorem good_splitDigitsS (s : List Char) :
    (∀ c ∈ (splitDigitsS s).head, c.isDigit = false) ∧
    (∀ pr ∈ (splitDigitsS s).tail, pr.1 ≠ [] ∧ (∀ c ∈ pr.1, c.isDigit = true) ∧
      (∀ c ∈ pr.2, c.isDigit = false)) := by
  induction s with
  | nil => simp [splitDigitsS]
  | cons c rest ih =>
    rcases e : splitDigitsS rest with ⟨hd, tl⟩
    rw [e] at ih
    by_cases hc : c.isDigit
    · cases hd with
      | nil =>
        cases tl with
        | nil =>
          rw [splitDigitsS_cons_digit_empty hc e]
          refine ⟨by simp, ?_⟩
          intro pr hpr
          simp at hpr
          subst hpr
          refine ⟨by simp, ?_, by simp⟩
          intro x hx
          simp at hx
          subst hx
          exact hc
        | cons p t =>
          rw [splitDigitsS_cons_digit_merge hc (by rw [e])]
          refine ⟨by simp, ?_⟩
          intro pr hpr
          rcases List.mem_cons.mp hpr with hpr' | hpr'
          · subst hpr'
            have hp := ih.2 p (by simp)
            refine ⟨by simp, ?_, hp.2.2⟩
            intro x hx
            rcases List.mem_cons.mp hx with hx' | hx'
            · subst hx'
              exact hc
            · exact hp.2.1 x hx'
          · exact ih.2 pr (by simp [hpr'])
      | cons x xs =>
        have hhead : (splitDigitsS rest).head = x :: xs := by
          rw [e]
        rw [splitDigitsS_cons_digit_new hc hhead, e]
        refine ⟨by simp, ?_⟩
        intro pr hpr
        rcases List.mem_cons.mp hpr with hpr' | hpr'
        · subst hpr'
          refine ⟨by simp, ?_, ih.1⟩
          intro y hy
          simp at hy
          subst hy
          exact hc
        · exact ih.2 pr hpr'
    · rw [splitDigitsS_cons_nondigit (by simpa using hc) rest, e]
      refine ⟨?_, ih.2⟩
      intro y hy
      rcases List.mem_cons.mp hy with hy' | hy'
      · subst hy'
        simpa using hc
      · exact ih.1 y hy'

theorem convChunk_nondigit {p : List Char} (hp : ∀ c ∈ p, c.isDigit = false) :
    convChunk p = .s (p.map Char.toLower) := by
  cases p with
  | nil => rfl
  | cons c cs =>
    have hc := hp c (by simp)
    have : pyIsDigit (c :: cs) = false := by
      simp [pyIsDigit, List.all_cons, hc]
    simp [convChunk, this]

theorem alternating_aux (h : List Char) (t : List (List Char × List Char))
    (hh : ∀ c ∈ h, c.isDigit = false)
    (ht : ∀ pr ∈ t, pr.1 ≠ [] ∧ (∀ c ∈ pr.1, c.isDigit = true) ∧
      (∀ c ∈ pr.2, c.isDigit = false)) :
    Alternating ((h :: pairChunks t).map convChunk) := by
  induction t generalizing h with
  | nil =>
    simp only [pairChunks, List.map_cons, List.map_nil]
    rw [convChunk_nondigit hh]
    exact .single _
  | cons pr t ih =>
    obtain ⟨d, nd⟩ := pr
    have hpr := ht (d, nd) (by simp)
    have hrec := ih nd hpr.2.2 (fun q hq => ht q (by simp [hq]))
    simp only [pairChunks, List.map_cons] at hrec ⊢
    rw [convChunk_nondigit hh, convChunk_digit hpr.1 hpr.2.1]
    exact .cons _ _ _ hrec

/-- Every `alphanum_key` result strictly alternates text / number. -/
theorem alternating_alphanum_key (s : List Char) : Alternating (alphanum_key s) := by
  have hg := good_splitDigitsS s
  exact alternating_aux _ _ hg.1 hg.2

theorem alternating_length_odd {L : List Chunk} (hL : Alternating L) :
    L.length % 2 = 1 := by
  induction hL with
  | single cs => rfl
  | cons cs v rest _ ih =>
    simp only [List.length_cons]
    omega

theorem alternating_get_isNum {L : List Chunk} (hL : Alternating L) :
    ∀ i (h : i < L.length), (L.get ⟨i, h⟩).isNum = decide (i % 2 = 1) := by
  induction hL with
  | single cs =>
    intro i h
    match i, h with
    | 0, _ => rfl
  | cons cs v rest _ ih =>
    intro i h
    match i with
    | 0 => rfl
    | 1 => rfl
    | (k + 2) =>
      have hk : k < rest.length := by
        simp only [List.length_cons] at h
        omega
      have heq : (k + 2) % 2 = k % 2 := by omega
      have := ih k hk
      simpa [heq] using this

/-! ### Totality of the key order -/

theorem strLtb_trichotomy (a b : List Char) :
    strLtb a b = true ∨ strLtb b a = true ∨ a = b := by
  induction a generalizing b with
  | nil =>
    cases b with
    | nil => exact Or.inr (Or.inr rfl)
    | cons y ys => exact Or.inl rfl
  | cons x xs ih =>
    cases b with
    | nil => exact Or.inr (Or.inl rfl)
    | cons y ys =>
      by_cases hxy : x = y
      · subst hxy
        rcases ih ys with h | h | h
        · exact Or.inl (by simpa [strLtb] using h)
        · exact Or.inr (Or.inl (by simpa [strLtb] using h))
        · exact Or.inr (Or.inr (by rw [h]))
      · have hne : x.toNat ≠ y.toNat := by
          intro e
          exact hxy (Char.ext (UInt32.ext e))
        rcases Nat.lt_or_ge x.toNat y.toNat with hlt | hge
        · exact Or.inl (by simp [strLtb, hxy, hlt])
        · have hgt : y.toNat < x.toNat := lt_of_le_of_ne hge (Ne.symm hne)
          exact Or.inr (Or.inl (by simp [strLtb, Ne.symm hxy, hgt]))

theorem chunkLtb_trichotomy (x y : Chunk) :
    chunkLtb x y = true ∨ chunkLtb y x = true ∨ x = y := by
  cases x with
  | s a =>
    cases y with
    | s b =>
      rcases strLtb_trichotomy a b with h | h | h
      · exact Or.inl (by simpa [chunkLtb] using h)
      · exact Or.inr (Or.inl (by simpa [chunkLtb] using h))
      · exact Or.inr (Or.inr (by rw [h]))
    | n v => exact Or.inr (Or.inl rfl)
  | n v =>
    cases y with
    | s b => exact Or.inl rfl
    | n w =>
      rcases Nat.lt_trichotomy v w with h | h | h
      · exact Or.inl (by simp [chunkLtb, h])
      · exact Or.inr (Or.inr (by rw [h]))
      · exact Or.inr (Or.inl (by simp [chunkLtb, h]))

theorem keyLtb_trichotomy (K₁ K₂ : List Chunk) :
    keyLtb K₁ K₂ = true ∨ keyLtb K₂ K₁ = true ∨ K₁ = K₂ := by
  induction K₁ generalizing K₂ with
  | nil =>
    cases K₂ with
    | nil => exact Or.inr (Or.inr rfl)
    | cons b bs => exact Or.inl rfl
  | cons a as ih =>
    cases K₂ with
    | nil => exact Or.inr (Or.inl rfl)
    | cons b bs =>
      by_cases hab : a = b
      · subst hab
        rcases ih bs with h | h | h
        · exact Or.inl (by simpa [keyLtb] using h)
        · exact Or.inr (Or.inl (by simpa [keyLtb] using h))
        · exact Or.inr (Or.inr (by rw [h]))
      · rcases chunkLtb_trichotomy a b with h | h | h
        · exact Or.inl (by simp [keyLtb, hab, h])
        · exact Or.inr (Or.inl (by simp [keyLtb, Ne.symm hab, h]))
        · exact absurd h hab

/-- C8.  Keys produced by `alphanum_key` all have the same alternating
shape: the key has odd length, components at even positions are text
chunks and components at odd positions are integers; hence comparing any
two keys compares components of equal kind at every shared position, and
the order is total on keys. -/
theorem alphanum_key_shape_safe (s₁ s₂ : List Char) :
    (alphanum_key s₁).length % 2 = 1 ∧
    (∀ i (h : i < (alphanum_key s₁).length),
      ((alphanum_key s₁).get ⟨i, h⟩).isNum = decide (i % 2 = 1)) ∧
    (∀ i (h₁ : i < (alphanum_key s₁).length) (h₂ : i < (alphanum_key s₂).length),
      ((alphanum_key s₁).get ⟨i, h₁⟩).isNum = ((alphanum_key s₂).get ⟨i, h₂⟩).isNum) ∧
    (keyLtb (alphanum_key s₁) (alphanum_key s₂) = true ∨
      keyLtb (alphanum_key s₂) (alphanum_key s₁) = true ∨
      alphanum_key s₁ = alphanum_key s₂) := by
  have h₁ := alternating_alphanum_key s₁
  have h₂ := alternating_alphanum_key s₂
  refine ⟨alternating_length_odd h₁, alternating_get_isNum h₁, ?_, keyLtb_trichotomy _ _⟩
  intro i hi₁ hi₂
  rw [alternating_get_isNum h₁ i hi₁, alternating_get_isNum h₂ i hi₂]

/-- Witness for C8 at two concrete marks. -/
theorem alphanum_key_shape_safe_witness :
    (alphanum_key ['a', '1']).length % 2 = 1 ∧
      (keyLtb (alphanum_key ['a', '1']) (alphanum_key ['B', '2', '2', 'x']) = true ∨
        keyLtb (alphanum_key ['B', '2', '2', 'x']) (alphanum_key ['a', '1']) = true ∨
        alphanum_key ['a', '1'] = alphanum_key ['B', '2', '2', 'x']) :=
  ⟨(alphanum_key_shape_safe ['a', '1'] ['B', '2', '2', 'x']).1,
    (alphanum_key_shape_safe ['a', '1'] ['B', '2', '2', 'x']).2.2.2⟩

/-! ## Wall/slab split positions

Embedding of the split-position loop shared by
`Create Walls.pushbutton/WallFromLine_script.py` and
`Create Slab.pushbutton/SlabFromLine_script.py`:

    if total_line_length > interval_ft:
        split_positions = []
        current_pos = interval_ft
        while current_pos < total_line_length - 0.01:
            split_positions.append(current_pos)
            current_pos += interval_ft + joint_gap_ft

The float quantities are embedded as exact rationals.  The loop step
`interval_ft + joint_gap_ft` is positive in every reachable call (the
dialog validation rejects `interval_ft <= 0` and negative gaps), which is
what makes the `while` loop terminate; the embedding carries that guard
in the recursion. -/

def splitLoopGo (step L pos : ℚ) : List ℚ :=
  if _h : 0 < step ∧ pos < L - 1/100 then
    pos :: splitLoopGo step L (pos + step)
  else
    []
termination_by (⌈(L - 1/100 - pos) / step⌉).toNat
decreasing_by
  obtain ⟨hs, hp⟩ := _h
  have h₁ : (0:ℚ) < (L - 1/100 - pos) / step := div_pos (by linarith) hs
  have h₂ : (L - 1/100 - (pos + step)) / step = (L - 1/100 - pos) / step - 1 := by
    field_simp
    ring
  have h₃ : 0 < ⌈(L - 1/100 - pos) / step⌉ := Int.ceil_pos.mpr h₁
  rw [h₂, Int.ceil_sub_one]
  omega

/-- The split positions computed for a total selected line length `L`,
interval `i` and joint gap `g` (all in feet). -/
def splitPositions (i g L : ℚ) : List ℚ :=
  if i < L then splitLoopGo (i + g) L i else []

theorem splitLoopGo_eq (step L pos : ℚ) :
    splitLoopGo step L pos =
      if 0 < step ∧ pos < L - 1/100 then pos :: splitLoopGo step L (pos + step)
      else [] := by
  rw [splitLoopGo.eq_def]
  split <;> simp_all

theorem mem_splitLoopGo {step L : ℚ} (hs : 0 < step) (pos x : ℚ) :
    x ∈ splitLoopGo step L pos →
      ∃ k : ℕ, x = pos + k * step ∧ x < L - 1/100 := by
  induction pos using splitLoopGo.induct step L with
  | case1 pos h ih =>
    rw [splitLoopGo_eq, if_pos h]
    intro hmem
    rcases List.mem_cons.mp hmem with he | ht
    · exact ⟨0, by simpa using he, he ▸ h.2⟩
    · obtain ⟨k, hk, hx⟩ := ih ht
      refine ⟨k + 1, ?_, hx⟩
      rw [hk]
      push_cast
      ring
  | case2 pos h =>
    rw [splitLoopGo_eq, if_neg h]
    intro hmem
    simp at hmem

theorem splitLoopGo_mem_of {step L : ℚ} (hs : 0 < step) :
    ∀ (k : ℕ) (pos : ℚ), pos + k * step < L - 1/100 →
      pos + k * step ∈ splitLoopGo step L pos := by
  intro k
  induction k with
  | zero =>
    intro pos hx
    rw [splitLoopGo_eq, if_pos ⟨hs, by simpa using hx⟩]
    simp
  | succ k ih =>
    intro pos hx
    have hstep : (0:ℚ) < ((k:ℚ) + 1) * step := by positivity
    have hpos : pos < L - 1/100 := by
      push_cast at hx
      nlinarith
    rw [splitLoopGo_eq, if_pos ⟨hs, hpos⟩]
    refine List.mem_cons_of_mem _ ?_
    have harr : pos + (k + 1 : ℕ) * step = (pos + step) + k * step := by
      push_cast
      ring
    rw [harr]
    exact ih (pos + step) (by rw [← harr]; exact hx)

theorem splitLoopGo_get? {step L : ℚ} (hs : 0 < step) (pos : ℚ) :
    ∀ k : ℕ, k < (splitLoopGo step L pos).length →
      (splitLoopGo step L pos).get? k = some (pos + k * step) := by
  induction pos using splitLoopGo.induct step L with
  | case1 pos h ih =>
    rw [splitLoopGo_eq, if_pos h]
    intro k hk
    match k with
    | 0 => simp
    | (j + 1) =>
      simp only [List.length_cons, Nat.add_lt_add_iff_right] at hk
      have := ih j hk
      simp only [List.get?_cons_succ, this]
      congr 1
      push_cast
      ring
  | case2 pos h =>
    rw [splitLoopGo_eq, if_neg h]
    intro k hk
    simp at hk

/-- C2.  With interval `i > 0` and joint gap `g ≥ 0`, the computed split
positions are exactly the values `i + k*(i+g)` that are strictly below
`L - 0.01` (the `k`-th position being `i + k*(i+g)`), and when `L ≤ i`
no split position is produced. -/
theorem splitPositions_spec (i g L : ℚ) (hi : 0 < i) (hg : 0 ≤ g) :
    (∀ p : ℚ, p ∈ splitPositions i g L ↔
      ∃ k : ℕ, p = i + k * (i + g) ∧ p < L - 1/100) ∧
    (∀ k : ℕ, k < (splitPositions i g L).length →
      (splitPositions i g L).get? k = some (i + k * (i + g))) ∧
    (L ≤ i → splitPositions i g L = []) := by
  have hs : (0:ℚ) < i + g := by linarith
  by_cases hL : i < L
  · refine ⟨?_, ?_, ?_⟩
    · intro p
      rw [splitPositions, if_pos hL]
      constructor
      · exact mem_splitLoopGo hs i p
      · rintro ⟨k, rfl, hlt⟩
        exact splitLoopGo_mem_of hs k i hlt
    · intro k hk
      rw [splitPositions, if_pos hL] at hk ⊢
      exact splitLoopGo_get? hs i k hk
    · intro hle
      exact absurd hL (not_lt.mpr hle)
  · have hempty : splitPositions i g L = [] := by
      rw [splitPositions, if_neg hL]
    refine ⟨?_, ?_, fun _ => hempty⟩
    · intro p
      rw [hempty]
      simp only [List.not_mem_nil, false_iff]
      rintro ⟨k, rfl, hlt⟩
      have hk : (0:ℚ) ≤ (k:ℚ) * (i + g) := by positivity
      have : L ≤ i := not_lt.mp hL
      linarith
    · intro k hk
      rw [hempty] at hk
      simp at hk

/-- Witness for C2 at `i = 1`, `g = 0`, `L = 5/2` (positions 1 and 2). -/
theorem splitPositions_spec_witness :
    (0:ℚ) < 1 ∧ (0:ℚ) ≤ 0 ∧
      ((∀ p : ℚ, p ∈ splitPositions 1 0 (5/2) ↔
        ∃ k : ℕ, p = 1 + k * (1 + 0) ∧ p < 5/2 - 1/100) ∧
      (∀ k : ℕ, k < (splitPositions 1 0 (5/2)).length →
        (splitPositions 1 0 (5/2)).get? k = some ((1 : ℚ) + (k : ℚ) * (1 + 0))) ∧
      ((5:ℚ)/2 ≤ 1 → splitPositions 1 0 (5/2) = [])) :=
  ⟨by norm_num, le_refl 0, splitPositions_spec 1 0 (5/2) (by norm_num) (le_refl 0)⟩

/-! ## Gap insertion when splitting one straight wall

Embedding of the per-wall sub-segment loop of
`WallFromLine_script.py` (the `Line` branch), in coordinates measured
along the wall: `splits` holds the distances `distance_on_wall` of the
split positions that fall strictly inside this wall, `L` is the wall
length and `g` the joint gap.

    prev_distance = 0.0
    for idx, split_pos in enumerate(splits_in_this_segment):
        distance_on_wall = split_pos - segment_start
        seg_start = start_pt + (direction * prev_distance)
        seg_end = start_pt + (direction * (distance_on_wall - joint_gap_ft/2.0))
        if seg_start.DistanceTo(seg_end) > 0.01:
            ... create wall segment ...
        prev_distance = distance_on_wall + joint_gap_ft/2.0
    if prev_distance < wall_length:
        ... create final segment to the wall end if DistanceTo > 0.01 ...

A created segment is the pair of its start/end distances along the wall;
`DistanceTo` of two points on the unit direction is the absolute
difference of their distances. -/

def wallSegGo (g L : ℚ) : ℚ → List ℚ → List (ℚ × ℚ)
  | prev, [] =>
    if prev < L then (if |L - prev| > 1/100 then [(prev, L)] else []) else []
  | prev, d :: ds =>
    (if |(d - g / 2) - prev| > 1/100 then [(prev, d - g / 2)] else []) ++
      wallSegGo g L (d + g / 2) ds

/-- The sub-segments created when splitting one wall of length `L` at
the in-wall distances `splits` with joint gap `g`. -/
def subSegments (g L : ℚ) (splits : List ℚ) : List (ℚ × ℚ) :=
  wallSegGo g L 0 splits

/-- The ideal segment boundaries: each split at distance `d` ends the
segment before it at `d - g/2` and begins the next at `d + g/2`; the
first segment starts at 0 and the last ends at `L`. -/
def gapBoundaries (g L : ℚ) (splits : List ℚ) : List (ℚ × ℚ) :=
  (0 :: splits.map (· + g / 2)).zip (splits.map (· - g / 2) ++ [L])

theorem wallSegGo_spec (g L : ℚ) (splits : List ℚ) : ∀ prev : ℚ,
    List.Sublist (wallSegGo g L prev splits)
      ((prev :: splits.map (· + g / 2)).zip (splits.map (· - g / 2) ++ [L])) ∧
    ∀ q ∈ wallSegGo g L prev splits, |q.2 - q.1| > 1/100 := by
  induction splits with
  | nil =>
    intro prev
    constructor
    · simp only [wallSegGo, List.map_nil, List.nil_append, List.zip_cons_cons,
        List.zip_nil_right]
      split_ifs with h₁ h₂
      · exact List.Sublist.refl _
      · exact List.nil_sublist _
      · exact List.nil_sublist _
    · intro q hq
      simp only [wallSegGo] at hq
      split_ifs at hq with h₁ h₂
      · rcases List.mem_singleton.mp hq with rfl
        simpa using h₂
      · simp at hq
      · simp at hq
  | cons d ds ih =>
    intro prev
    have ihp := ih (d + g / 2)
    constructor
    · simp only [wallSegGo, List.map_cons, List.cons_append, List.zip_cons_cons]
      split_ifs with h₁
      · simp only [List.singleton_append]
        exact List.Sublist.cons₂ _ ihp.1
      · simp only [List.nil_append]
        exact List.Sublist.cons _ ihp.1
    · intro q hq
      simp only [wallSegGo] at hq
      rcases List.mem_append.mp hq with hq' | hq'
      · split_ifs at hq' with h₁
        · rcases List.mem_singleton.mp hq' with rfl
          simpa using h₁
        · simp at hq'
      · exact ihp.2 q hq'

/-- C3.  Every sub-segment created when splitting a straight wall is one
of the ideal boundary pairs (the segment before a split at in-wall
distance `d` ends at `d - g/2`, the next begins at `d + g/2`, the first
starts at 0 and the last ends at `L`), the created segments appear in
order, and a sub-segment is only created when its end points are more
than 0.01 ft apart. -/
theorem subSegments_spec (g L : ℚ) (splits : List ℚ) :
    List.Sublist (subSegments g L splits) (gapBoundaries g L splits) ∧
    ∀ q ∈ subSegments g L splits, |q.2 - q.1| > 1/100 :=
  wallSegGo_spec g L splits 0

/-- Witness for C3 at `g = 1/2`, `L = 6`, splits at 2 and 4. -/
theorem subSegments_spec_witness :
    ((0 : ℚ), (7 : ℚ)/4) ∈ subSegments (1/2) 6 [2, 4] ∧
      |((0 : ℚ), (7 : ℚ)/4).2 - ((0 : ℚ), (7 : ℚ)/4).1| > 1/100 := by
  have hmem : ((0 : ℚ), (7 : ℚ)/4) ∈ subSegments (1/2) 6 [2, 4] := by
    have h₁ : |(2 : ℚ) - 1/2/2 - 0| > 1/100 := by
      rw [show |(2 : ℚ) - 1/2/2 - 0| = 7/4 by rw [abs_of_pos] <;> norm_num]
      norm_num
    simp only [subSegments, wallSegGo, if_pos h₁]
    norm_num
  exact ⟨hmem, (subSegments_spec (1/2) 6 [2, 4]).2 (0, 7/4) hmem⟩

/-! ## Grid classification

Embedding of `classify_grids_for_view` from
`Grid Dimension.pushbutton/GridAnnotation_script.py`:

    for grid in grids:
        try:
            direction = grid.Curve.Direction
            angle_x = abs(direction.X)
            angle_y = abs(direction.Y)
            if angle_x > 0.97:
                horizontal_grids.append(grid)
            elif angle_y > 0.97:
                vertical_grids.append(grid)
            else:
                inclined_grids.append(grid)
        except:
            pass
    return vertical_grids, horizontal_grids, inclined_grids

A grid is its identity plus, when `grid.Curve.Direction` can be read,
the X and Y components of the direction (as exact rationals); a grid
whose direction cannot be read (`except: pass`) carries `none`. -/

/-- A grid as seen by the classifier. -/
structure GridInfo where
  id : Nat
  dir : Option (ℚ × ℚ)
deriving DecidableEq, Repr

/-- The classifier: returns (vertical, horizontal, inclined). -/
def classify_grids_for_view : List GridInfo → List GridInfo × List GridInfo × List GridInfo
  | [] => ([], [], [])
  | g :: rest =>
    let c := classify_grids_for_view rest
    match g.dir with
    | none => c
    | some (x, y) =>
      if |x| > 97/100 then (c.1, g :: c.2.1, c.2.2)
      else if |y| > 97/100 then (g :: c.1, c.2.1, c.2.2)
      else (c.1, c.2.1, g :: c.2.2)

theorem classify_mem (grids : List GridInfo) (g : GridInfo) :
    (g ∈ (classify_grids_for_view grids).1 ↔
      g ∈ grids ∧ ∃ x y, g.dir = some (x, y) ∧ |x| ≤ 97/100 ∧ |y| > 97/100) ∧
    (g ∈ (classify_grids_for_view grids).2.1 ↔
      g ∈ grids ∧ ∃ x y, g.dir = some (x, y) ∧ |x| > 97/100) ∧
    (g ∈ (classify_grids_for_view grids).2.2 ↔
      g ∈ grids ∧ ∃ x y, g.dir = some (x, y) ∧ |x| ≤ 97/100 ∧ |y| ≤ 97/100) := by
  induction grids with
  | nil => simp [classify_grids_for_view]
  | cons a rest ih =>
    obtain ⟨ihv, ihh, ihi⟩ := ih
    rcases e : a.dir with _ | ⟨x, y⟩
    · simp only [classify_grids_for_view, e, List.mem_cons]
      refine ⟨?_, ?_, ?_⟩
      · rw [ihv]
        constructor
        · rintro ⟨hg, hx⟩
          exact ⟨Or.inr hg, hx⟩
        · rintro ⟨hor, x', y', hd, hx⟩
          rcases hor with rfl | hg
          · rw [e] at hd
            cases hd
          · exact ⟨hg, x', y', hd, hx⟩
      · rw [ihh]
        constructor
        · rintro ⟨hg, hx⟩
          exact ⟨Or.inr hg, hx⟩
        · rintro ⟨hor, x', y', hd, hx⟩
          rcases hor with rfl | hg
          · rw [e] at hd
            cases hd
          · exact ⟨hg, x', y', hd, hx⟩
      · rw [ihi]
        constructor
        · rintro ⟨hg, hx⟩
          exact ⟨Or.inr hg, hx⟩
        · rintro ⟨hor, x', y', hd, hx⟩
          rcases hor with rfl | hg
          · rw [e] at hd
            cases hd
          · exact ⟨hg, x', y', hd, hx⟩
    · by_cases hx : |x| > 97/100
      · simp only [classify_grids_for_view, e, if_pos hx, List.mem_cons]
        refine ⟨?_, ?_, ?_⟩
        · rw [ihv]
          constructor
          · rintro ⟨hg, hrest⟩
            exact ⟨Or.inr hg, hrest⟩
          · rintro ⟨hor, x', y', hd, hx', hy'⟩
            rcases hor with rfl | hg
            · rw [e] at hd
              injection hd with hd
              injection hd with h1 h2
              subst h1
              exact absurd hx (not_lt.mpr hx')
            · exact ⟨hg, x', y', hd, hx', hy'⟩
        · constructor
          · intro hmem
            rcases hmem with rfl | hg
            · exact ⟨Or.inl rfl, x, y, e, hx⟩
            · obtain ⟨hg', hrest⟩ := ihh.mp hg
              exact ⟨Or.inr hg', hrest⟩
          · rintro ⟨hor, x', y', hd, hx'⟩
            rcases hor with rfl | hg
            · exact Or.inl rfl
            · exact Or.inr (ihh.mpr ⟨hg, x', y', hd, hx'⟩)
        · rw [ihi]
          constructor
          · rintro ⟨hg, hrest⟩
            exact ⟨Or.inr hg, hrest⟩
          · rintro ⟨hor, x', y', hd, hx', hy'⟩
            rcases hor with rfl | hg
            · rw [e] at hd
              injection hd with hd
              injection hd with h1 h2
              subst h1
              exact absurd hx (not_lt.mpr hx')
            · exact ⟨hg, x', y', hd, hx', hy'⟩
      · by_cases hy : |y| > 97/100
        · simp only [classify_grids_for_view, e, if_neg hx, if_pos hy, List.mem_cons]
          refine ⟨?_, ?_, ?_⟩
          · constructor
            · intro hmem
              rcases hmem with rfl | hg
              · exact ⟨Or.inl rfl, x, y, e, not_lt.mp hx, hy⟩
              · obtain ⟨hg', hrest⟩ := ihv.mp hg
                exact ⟨Or.inr hg', hrest⟩
            · rintro ⟨hor, x', y', hd, hx', hy'⟩
              rcases hor with rfl | hg
              · exact Or.inl rfl
              · exact Or.inr (ihv.mpr ⟨hg, x', y', hd, hx', hy'⟩)
          · rw [ihh]
            constructor
            · rintro ⟨hg, hrest⟩
              exact ⟨Or.inr hg, hrest⟩
            · rintro ⟨hor, x', y', hd, hx'⟩
              rcases hor with rfl | hg
              · rw [e] at hd
                injection hd with hd
                injection hd with h1 h2
                subst h1
                exact absurd hx' hx
              · exact ⟨hg, x', y', hd, hx'⟩
          · rw [ihi]
            constructor
            · rintro ⟨hg, hrest⟩
              exact ⟨Or.inr hg, hrest⟩
            · rintro ⟨hor, x', y', hd, hx', hy'⟩
              rcases hor with rfl | hg
              · rw [e] at hd
                injection hd with hd
                injection hd with h1 h2
                subst h2
                exact absurd hy (not_lt.mpr hy')
              · exact ⟨hg, x', y', hd, hx', hy'⟩
        · simp only [classify_grids_for_view, e, if_neg hx, if_neg hy, List.mem_cons]
          refine ⟨?_, ?_, ?_⟩
          · rw [ihv]
            constructor
            · rintro ⟨hg, hrest⟩
              exact ⟨Or.inr hg, hrest⟩
            · rintro ⟨hor, x', y', hd, hx', hy'⟩
              rcases hor with rfl | hg
              · rw [e] at hd
                injection hd with hd
                injection hd with h1 h2
                subst h2
                exact absurd hy' hy
              · exact ⟨hg, x', y', hd, hx', hy'⟩
          · rw [ihh]
            constructor
            · rintro ⟨hg, hrest⟩
              exact ⟨Or.inr hg, hrest⟩
            · rintro ⟨hor, x', y', hd, hx'⟩
              rcases hor with rfl | hg
              · rw [e] at hd
                injection hd with hd
                injection hd with h1 h2
                subst h1
                exact absurd hx' hx
              · exact ⟨hg, x', y', hd, hx'⟩
          · constructor
            · intro hmem
              rcases hmem with rfl | hg
              · exact ⟨Or.inl rfl, x, y, e, not_lt.mp hx, not_lt.mp hy⟩
              · obtain ⟨hg', hrest⟩ := ihi.mp hg
                exact ⟨Or.inr hg', hrest⟩
            · rintro ⟨hor, x', y', hd, hx', hy'⟩
              rcases hor with rfl | hg
              · exact Or.inl rfl
              · exact Or.inr (ihi.mpr ⟨hg, x', y', hd, hx', hy'⟩)

theorem classify_count (grids : List GridInfo) :
    (classify_grids_for_view grids).1.length +
      (classify_grids_for_view grids).2.1.length +
      (classify_grids_for_view grids).2.2.length =
      (grids.filter (fun g => g.dir.isSome)).length := by
  induction grids with
  | nil => rfl
  | cons a rest ih =>
    rcases e : a.dir with _ | ⟨x, y⟩
    · simpa [classify_grids_for_view, e, List.filter_cons] using ih
    · by_cases hx : |x| > 97/100
      · simp only [classify_grids_for_view, e, if_pos hx, List.filter_cons,
          Option.isSome_some, if_true, List.length_cons]
        omega
      · by_cases hy : |y| > 97/100
        · simp only [classify_grids_for_view, e, if_neg hx, if_pos hy,
            List.filter_cons, Option.isSome_some, if_true, List.length_cons]
          omega
        · simp only [classify_grids_for_view, e, if_neg hx, if_neg hy,
            List.filter_cons, Option.isSome_some, if_true, List.length_cons]
          omega

/-- C4.  `classify_grids_for_view` partitions the classifiable grids:
a grid with readable direction `(x, y)` lands in exactly one of the
horizontal (`|x| > 0.97`), vertical (`|x| ≤ 0.97` and `|y| > 0.97`) or
inclined (otherwise) lists, and the three lists together contain exactly
the classifiable grids. -/
theorem classify_grids_partition (grids : List GridInfo) (g : GridInfo) (x y : ℚ)
    (hmem : g ∈ grids) (hdir : g.dir = some (x, y)) :
    (|x| > 97/100 →
      g ∈ (classify_grids_for_view grids).2.1 ∧
      g ∉ (classify_grids_for_view grids).1 ∧
      g ∉ (classify_grids_for_view grids).2.2) ∧
    (|x| ≤ 97/100 → |y| > 97/100 →
      g ∈ (classify_grids_for_view grids).1 ∧
      g ∉ (classify_grids_for_view grids).2.1 ∧
      g ∉ (classify_grids_for_view grids).2.2) ∧
    (|x| ≤ 97/100 → |y| ≤ 97/100 →
      g ∈ (classify_grids_for_view grids).2.2 ∧
      g ∉ (classify_grids_for_view grids).1 ∧
      g ∉ (classify_grids_for_view grids).2.1) ∧
    (classify_grids_for_view grids).1.length +
      (classify_grids_for_view grids).2.1.length +
      (classify_grids_for_view grids).2.2.length =
      (grids.filter (fun g => g.dir.isSome)).length := by
  obtain ⟨hv, hh, hi⟩ := classify_mem grids g
  refine ⟨?_, ?_, ?_, classify_count grids⟩
  · intro hx
    refine ⟨hh.mpr ⟨hmem, x, y, hdir, hx⟩, ?_, ?_⟩
    · intro hbad
      obtain ⟨_, x', y', hd, hx', _⟩ := hv.mp hbad
      rw [hdir] at hd
      injection hd with hd
      injection hd with h1 h2
      subst h1
      exact absurd hx (not_lt.mpr hx')
    · intro hbad
      obtain ⟨_, x', y', hd, hx', _⟩ := hi.mp hbad
      rw [hdir] at hd
      injection hd with hd
      injection hd with h1 h2
      subst h1
      exact absurd hx (not_lt.mpr hx')
  · intro hx hy
    refine ⟨hv.mpr ⟨hmem, x, y, hdir, hx, hy⟩, ?_, ?_⟩
    · intro hbad
      obtain ⟨_, x', y', hd, hx'⟩ := hh.mp hbad
      rw [hdir] at hd
      injection hd with hd
      injection hd with h1 h2
      subst h1
      exact absurd hx' (not_lt.mpr hx)
    · intro hbad
      obtain ⟨_, x', y', hd, _, hy'⟩ := hi.mp hbad
      rw [hdir] at hd
      injection hd with hd
      injection hd with h1 h2
      subst h2
      exact absurd hy (not_lt.mpr hy')
  · intro hx hy
    refine ⟨hi.mpr ⟨hmem, x, y, hdir, hx, hy⟩, ?_, ?_⟩
    · intro hbad
      obtain ⟨_, x', y', hd, _, hy'⟩ := hv.mp hbad
      rw [hdir] at hd
      injection hd with hd
      injection hd with h1 h2
      subst h2
      exact absurd hy' (not_lt.mpr hy)
    · intro hbad
      obtain ⟨_, x', y', hd, hx'⟩ := hh.mp hbad
      rw [hdir] at hd
      injection hd with hd
      injection hd with h1 h2
      subst h1
      exact absurd hx' (not_lt.mpr hx)

/-- Witness for C4: a diagonal grid is classified as inclined only. -/
theorem classify_grids_partition_witness :
    (⟨1, some (707/1000, 707/1000)⟩ : GridInfo) ∈
        (classify_grids_for_view [⟨1, some (707/1000, 707/1000)⟩]).2.2 ∧
      (⟨1, some (707/1000, 707/1000)⟩ : GridInfo) ∉
        (classify_grids_for_view [⟨1, some (707/1000, 707/1000)⟩]).1 ∧
      (⟨1, some (707/1000, 707/1000)⟩ : GridInfo) ∉
        (classify_grids_for_view [⟨1, some (707/1000, 707/1000)⟩]).2.1 := by
  have h := classify_grids_partition [⟨1, some (707/1000, 707/1000)⟩]
    ⟨1, some (707/1000, 707/1000)⟩ (707/1000) (707/1000) (by simp) rfl
  have habs : |(707:ℚ)/1000| ≤ 97/100 := by
    rw [abs_of_pos (by norm_num)]
    norm_num
  exact h.2.2.1 habs habs

/-! ## Erection-mark rotation angle

Embedding of the angle computation of `RotateAssemblies_script.py`
(`AssemblyData.GetErectionMarkAngle` and
`RotateAssembliesWindow.CalculateRotationAngle`, identical numerics):

    mark_x_2d = XYZ(mark_x.X, mark_x.Y, 0).Normalize()
    assembly_x_2d = XYZ(assembly_x.X, assembly_x.Y, 0).Normalize()
    mark_angle = math.atan2(mark_x_2d.Y, mark_x_2d.X)
    assembly_angle = math.atan2(assembly_x_2d.Y, assembly_x_2d.X)
    angle_deg = math.degrees(mark_angle - assembly_angle)
    while angle_deg > 180:
        angle_deg -= 360
    while angle_deg < -180:
        angle_deg += 360

The float arithmetic is embedded over the reals.  Revit's
`XYZ.Normalize` returns the zero vector when the length is zero. -/

/-- Python `math.atan2 (y, x)`. -/
noncomputable def atan2 (y x : ℝ) : ℝ :=
  if 0 < x then Real.arctan (y / x)
  else if x < 0 ∧ 0 ≤ y then Real.arctan (y / x) + Real.pi
  else if x < 0 ∧ y < 0 then Real.arctan (y / x) - Real.pi
  else if x = 0 ∧ 0 < y then Real.pi / 2
  else if x = 0 ∧ y < 0 then -(Real.pi / 2)
  else 0

/-- Python `math.degrees`. -/
noncomputable def degrees (r : ℝ) : ℝ := r * 180 / Real.pi

/-- `XYZ(x, y, 0).Normalize()` restricted to the XY components. -/
noncomputable def normalize2 (x y : ℝ) : ℝ × ℝ :=
  let n := Real.sqrt (x ^ 2 + y ^ 2)
  if n = 0 then (0, 0) else (x / n, y / n)

/-- The loop `while angle_deg > 180: angle_deg -= 360`. -/
noncomputable def subLoop (a : ℝ) : ℝ :=
  if _h : 180 < a then subLoop (a - 360) else a
termination_by (⌈(a - 180) / 360⌉).toNat
decreasing_by
  have h₁ : (0:ℝ) < (a - 180) / 360 := div_pos (by linarith) (by norm_num)
  have h₂ : (a - 360 - 180) / 360 = (a - 180) / 360 - 1 := by ring
  have h₃ : 0 < ⌈(a - 180) / 360⌉ := Int.ceil_pos.mpr h₁
  rw [h₂, Int.ceil_sub_one]
  omega

/-- The loop `while angle_deg < -180: angle_deg += 360`. -/
noncomputable def addLoop (a : ℝ) : ℝ :=
  if _h : a < -180 then addLoop (a + 360) else a
termination_by (⌈(-180 - a) / 360⌉).toNat
decreasing_by
  have h₁ : (0:ℝ) < (-180 - a) / 360 := div_pos (by linarith) (by norm_num)
  have h₂ : (-180 - (a + 360)) / 360 = (-180 - a) / 360 - 1 := by ring
  have h₃ : 0 < ⌈(-180 - a) / 360⌉ := Int.ceil_pos.mpr h₁
  rw [h₂, Int.ceil_sub_one]
  omega

/-- Both normalization loops in sequence, as executed by the script. -/
noncomputable def normalizeDeg (a : ℝ) : ℝ := addLoop (subLoop a)

/-- The raw angle difference of the two XY-projected basis vectors,
converted to degrees. -/
noncomputable def rawAngleDeg (mx my ax ay : ℝ) : ℝ :=
  degrees (atan2 (normalize2 mx my).2 (normalize2 mx my).1 -
    atan2 (normalize2 ax ay).2 (normalize2 ax ay).1)

/-- The rotation angle reported by the script. -/
noncomputable def erectionMarkAngleDeg (mx my ax ay : ℝ) : ℝ :=
  normalizeDeg (rawAngleDeg mx my ax ay)

theorem subLoop_le (a : ℝ) : subLoop a ≤ 180 := by
  induction a using subLoop.induct with
  | case1 a h ih =>
    rw [subLoop.eq_def, dif_pos h]
    exact ih
  | case2 a h =>
    rw [subLoop.eq_def, dif_neg h]
    linarith [not_lt.mp h]

theorem subLoop_sub (a : ℝ) : ∃ k : ℤ, subLoop a = a - 360 * k := by
  induction a using subLoop.induct with
  | case1 a h ih =>
    rw [subLoop.eq_def, dif_pos h]
    obtain ⟨k, hk⟩ := ih
    exact ⟨k + 1, by rw [hk]; push_cast; ring⟩
  | case2 a h =>
    rw [subLoop.eq_def, dif_neg h]
    exact ⟨0, by ring⟩

theorem addLoop_ge (a : ℝ) : -180 ≤ addLoop a := by
  induction a using addLoop.induct with
  | case1 a h ih =>
    rw [addLoop.eq_def, dif_pos h]
    exact ih
  | case2 a h =>
    rw [addLoop.eq_def, dif_neg h]
    linarith [not_lt.mp h]

theorem addLoop_le (a : ℝ) (ha : a ≤ 180) : addLoop a ≤ 180 := by
  induction a using addLoop.induct with
  | case1 a h ih =>
    rw [addLoop.eq_def, dif_pos h]
    exact ih (by linarith)
  | case2 a h =>
    rw [addLoop.eq_def, dif_neg h]
    exact ha

theorem addLoop_add (a : ℝ) : ∃ k : ℤ, addLoop a = a + 360 * k := by
  induction a using addLoop.induct with
  | case1 a h ih =>
    rw [addLoop.eq_def, dif_pos h]
    obtain ⟨k, hk⟩ := ih
    exact ⟨k + 1, by rw [hk]; push_cast; ring⟩
  | case2 a h =>
    rw [addLoop.eq_def, dif_neg h]
    exact ⟨0, by ring⟩

theorem normalizeDeg_spec (a : ℝ) :
    normalizeDeg a ∈ Set.Icc (-180 : ℝ) 180 ∧
      ∃ k : ℤ, normalizeDeg a = a + 360 * k := by
  unfold normalizeDeg
  refine ⟨⟨addLoop_ge _, addLoop_le _ (subLoop_le a)⟩, ?_⟩
  obtain ⟨k₁, hk₁⟩ := subLoop_sub a
  obtain ⟨k₂, hk₂⟩ := addLoop_add (subLoop a)
  refine ⟨k₂ - k₁, ?_⟩
  rw [hk₂, hk₁]
  push_cast
  ring

/-- C5.  For every pair of nonzero XY-projected basis vectors, the
normalization loops terminate (the functions below are total) and the
rotation angle returned by the script lies in `[-180, 180]` and differs
from the raw degree difference of the two `atan2` angles by an integer
multiple of 360. -/
theorem erectionMarkAngle_normalized (mx my ax ay : ℝ)
    (hm : (mx, my) ≠ ((0 : ℝ), (0 : ℝ))) (ha : (ax, ay) ≠ ((0 : ℝ), (0 : ℝ))) :
    erectionMarkAngleDeg mx my ax ay ∈ Set.Icc (-180 : ℝ) 180 ∧
      ∃ k : ℤ, erectionMarkAngleDeg mx my ax ay =
        rawAngleDeg mx my ax ay + 360 * k :=
  normalizeDeg_spec (rawAngleDeg mx my ax ay)

/-- Witness for C5 at the basis vectors (0,1) and (1,0). -/
theorem erectionMarkAngle_normalized_witness :
    ((0 : ℝ), (1 : ℝ)) ≠ ((0 : ℝ), (0 : ℝ)) ∧
      (erectionMarkAngleDeg 0 1 1 0 ∈ Set.Icc (-180 : ℝ) 180 ∧
        ∃ k : ℤ, erectionMarkAngleDeg 0 1 1 0 = rawAngleDeg 0 1 1 0 + 360 * k) :=
  ⟨by simp, erectionMarkAngle_normalized 0 1 1 0 (by simp) (by simp)⟩

/-! ## Per-assembly rotation transactions

Embedding of `RotateAssembliesWindow.RotateAssemblies` from
`RotateAssemblies_script.py`:

    for i, assembly_data in enumerate(selected):
        t = Transaction(doc, "Rotate Assembly {}".format(i + 1))
        t.Start()
        try:
            angle_deg = self.CalculateRotationAngle(assembly_data)
            if angle_deg == 0:
                output skipped; skipped += 1; t.RollBack(); continue
            trans = assembly.GetTransform(); ...
            assembly.SetTransform(new_transform)
            t.Commit()
            output rotated; rotated += 1
        except Exception as e:
            t.RollBack(); output failed; failed += 1
    ... print summary with rotated/skipped/failed ...

An assembly is abstracted by the angle that
`CalculateRotationAngle` returns (that method catches its own exceptions
and returns 0.0), plus two flags saying whether the transform read
(`GetTransform`/rotation construction) or `SetTransform` raises. -/

/-- One selected assembly as the per-item loop sees it. -/
structure RotItem where
  id : Nat
  angle : ℚ
  getRaises : Bool
  setRaises : Bool
deriving DecidableEq, Repr

/-- Events of one per-assembly transaction body. -/
inductive TxEv where
  | start
  | rollback
  | commit
  | setTransform (id : Nat)
  | logRotated (id : Nat)
  | logSkipped (id : Nat)
  | logFailed (id : Nat)
deriving DecidableEq, Repr

/-- The event trace of one iteration of the rotation loop. -/
def assemblyTxTrace (it : RotItem) : List TxEv :=
  [.start] ++
    (if it.angle = 0 then [.logSkipped it.id, .rollback]
     else if it.getRaises then [.rollback, .logFailed it.id]
     else if it.setRaises then [.rollback, .logFailed it.id]
     else [.setTransform it.id, .commit, .logRotated it.id])

/-- Transaction semantics: the `SetTransform` mutations performed inside
a transaction become visible in the document only if the transaction
committed; a rolled-back transaction leaves the document unchanged. -/
def appliedChanges (tr : List TxEv) : List Nat :=
  if TxEv.commit ∈ tr then
    tr.filterMap (fun e => match e with | .setTransform i => some i | _ => none)
  else []

/-- C9.  Each assembly is rotated in its own dedicated transaction: when
the computed angle is 0 or any rotation step raises, the transaction is
rolled back and the document is unchanged for that assembly; the
transaction commits exactly when `SetTransform` succeeded, and then the
commit happens directly after the `SetTransform`. -/
theorem assemblyTx_rollback_safe (it : RotItem) :
    (it.angle = 0 ∨ it.getRaises = true ∨ it.setRaises = true →
      TxEv.rollback ∈ assemblyTxTrace it ∧ TxEv.commit ∉ assemblyTxTrace it ∧
      appliedChanges (assemblyTxTrace it) = []) ∧
    (TxEv.commit ∈ assemblyTxTrace it →
      it.angle ≠ 0 ∧ it.getRaises = false ∧ it.setRaises = false ∧
      assemblyTxTrace it =
        [.start, .setTransform it.id, .commit, .logRotated it.id] ∧
      appliedChanges (assemblyTxTrace it) = [it.id]) := by
  obtain ⟨i, ang, gr, sr⟩ := it
  by_cases hang : ang = 0
  · subst hang
    constructor
    · intro _
      refine ⟨by simp [assemblyTxTrace], by simp [assemblyTxTrace], ?_⟩
      simp [appliedChanges, assemblyTxTrace]
    · intro hc
      simp [assemblyTxTrace] at hc
  · cases gr
    · cases sr
      · constructor
        · rintro (h | h | h)
          · exact absurd h hang
          · exact absurd h (by simp)
          · exact absurd h (by simp)
        · intro _
          refine ⟨hang, rfl, rfl, ?_, ?_⟩
          · simp [assemblyTxTrace, hang]
          · simp [appliedChanges, assemblyTxTrace, hang]
      · constructor
        · intro _
          refine ⟨by simp [assemblyTxTrace, hang], by simp [assemblyTxTrace, hang], ?_⟩
          simp [appliedChanges, assemblyTxTrace, hang]
        · intro hc
          simp [assemblyTxTrace, hang] at hc
    · constructor
      · intro _
        refine ⟨by simp [assemblyTxTrace, hang], by simp [assemblyTxTrace, hang], ?_⟩
        simp [appliedChanges, assemblyTxTrace, hang]
      · intro hc
        simp [assemblyTxTrace, hang] at hc

/-- Witness for C9: an assembly whose `SetTransform` raises leaves the
document unchanged. -/
theorem assemblyTx_rollback_safe_witness :
    TxEv.rollback ∈ assemblyTxTrace ⟨7, 90, false, true⟩ ∧
      TxEv.commit ∉ assemblyTxTrace ⟨7, 90, false, true⟩ ∧
      appliedChanges (assemblyTxTrace ⟨7, 90, false, true⟩) = [] :=
  (assemblyTx_rollback_safe ⟨7, 90, false, true⟩).1 (Or.inr (Or.inr rfl))

/-! ## The rotation loop and its summary

The per-item loop of `RotateAssemblies`: each iteration produces the
transaction trace of `assemblyTxTrace`, failures and skips are counted,
and after the loop a summary with the three counts is printed. -/

/-- Counters and log accumulated by the rotation loop. -/
structure RotSummary where
  rotated : Nat
  skipped : Nat
  failed : Nat
  log : List TxEv
deriving DecidableEq, Repr

/-- The whole rotation loop over the selected assemblies, in order. -/
def rotateLoop : List RotItem → RotSummary
  | [] => ⟨0, 0, 0, []⟩
  | it :: rest =>
    let r := rotateLoop rest
    if it.angle = 0 then ⟨r.rotated, r.skipped + 1, r.failed, assemblyTxTrace it ++ r.log⟩
    else if it.getRaises || it.setRaises then
      ⟨r.rotated, r.skipped, r.failed + 1, assemblyTxTrace it ++ r.log⟩
    else ⟨r.rotated + 1, r.skipped, r.failed, assemblyTxTrace it ++ r.log⟩

/-- Script-level output: the loop log followed by the printed summary. -/
inductive RotScriptEv where
  | tx (e : TxEv)
  | summary (rotated skipped failed : Nat)
deriving DecidableEq, Repr

/-- The output of the whole `RotateAssemblies` run: per-item traces then
the summary with the final counters. -/
def rotateScriptTrace (items : List RotItem) : List RotScriptEv :=
  (rotateLoop items).log.map .tx ++
    [.summary (rotateLoop items).rotated (rotateLoop items).skipped
      (rotateLoop items).failed]

/-! ## The Set Comment Values transaction loop

Embedding of Step 8 of
`Automation.tab/.../Comments Value.pushbutton/script.py`:

    count = 1
    updated = 0
    with revit.Transaction(...):
        for mark_text, elem in marked_elements:   # sorted by alphanum_key
            try:
                c = elem.LookupParameter("Comments")
                if c is None or c.IsReadOnly:
                    skipped_no_comments.append(elem); continue
                try:
                    c.Set("{}{:03d}".format(prefix, count))
                except Exception as ex:
                    failed.append((elem, str(ex))); continue
                count += 1
                updated += 1
            except Exception as ex:
                failed.append((elem, str(ex)))

An element is abstracted by its identity, its Mark text, whether its
Comments parameter exists and is writable, and whether the parameter
lookup or the `Set` call raises. -/

/-- One marked element as the numbering loop sees it. -/
structure CElem where
  id : Nat
  mark : List Char
  hasComments : Bool
  lookupRaises : Bool
  setRaises : Bool
deriving DecidableEq, Repr

/-- Result of the numbering loop: final counter, number of updates, the
skipped and failed element ids in order, and the performed writes
(element id, written Comments text) in order. -/
structure CommentsResult where
  count : Nat
  updated : Nat
  skippedNC : List Nat
  failedIds : List Nat
  writes : List (Nat × List Char)
deriving DecidableEq, Repr

/-- Python `"{:03d}".format(n)`: decimal, zero-padded to width 3. -/
def pad3 (n : Nat) : List Char :=
  if (natChars n).length < 3 then
    List.replicate (3 - (natChars n).length) '0' ++ natChars n
  else natChars n

/-- The numbering loop, with the running counter as it stands when the
current head element is processed. -/
def commentsLoopGo (pfx : List Char) : Nat → List CElem → CommentsResult
  | count, [] => ⟨count, 0, [], [], []⟩
  | count, e :: rest =>
    if e.lookupRaises then
      let r := commentsLoopGo pfx count rest
      ⟨r.count, r.updated, r.skippedNC, e.id :: r.failedIds, r.writes⟩
    else if !e.hasComments then
      let r := commentsLoopGo pfx count rest
      ⟨r.count, r.updated, e.id :: r.skippedNC, r.failedIds, r.writes⟩
    else if e.setRaises then
      let r := commentsLoopGo pfx count rest
      ⟨r.count, r.updated, r.skippedNC, e.id :: r.failedIds, r.writes⟩
    else
      let r := commentsLoopGo pfx (count + 1) rest
      ⟨r.count, r.updated + 1, r.skippedNC, r.failedIds,
        (e.id, pfx ++ pad3 count) :: r.writes⟩

/-- The loop as the script runs it: counter starts at 1. -/
def commentsLoop (pfx : List Char) (elems : List CElem) : CommentsResult :=
  commentsLoopGo pfx 1 elems

/-- Python sort order on elements by the natural key of their Mark:
`a ≤ b` iff `b`'s key is not strictly below `a`'s. -/
def markLe (a b : CElem) : Prop :=
  keyLtb (alphanum_key b.mark) (alphanum_key a.mark) = false

instance : DecidableRel markLe := fun a b => by
  unfold markLe
  infer_instance

/-- The whole Step 6-8 pipeline: sort the marked elements by
`alphanum_key` of the Mark, then run the numbering loop. -/
def setCommentValues (pfx : List Char) (elems : List CElem) : CommentsResult :=
  commentsLoop pfx (List.insertionSort markLe elems)

/-! ### The key order is a strict weak order -/

theorem strLtb_asymm {a b : List Char} (h : strLtb a b = true) : strLtb b a = false := by
  induction a generalizing b with
  | nil =>
    cases b with
    | nil => simpa [strLtb] using h
    | cons y ys => simp [strLtb]
  | cons x xs ih =>
    cases b with
    | nil => simp [strLtb] at h
    | cons y ys =>
      by_cases hxy : x = y
      · subst hxy
        simp only [strLtb, if_pos rfl] at h ⊢
        exact ih h
      · simp only [strLtb, if_neg hxy, decide_eq_true_eq] at h
        simp only [strLtb, if_neg (Ne.symm hxy), decide_eq_false_iff_not]
        omega

theorem chunkLtb_asymm {x y : Chunk} (h : chunkLtb x y = true) : chunkLtb y x = false := by
  cases x with
  | s a =>
    cases y with
    | s b =>
      simp only [chunkLtb] at h ⊢
      exact strLtb_asymm h
    | n w => simp [chunkLtb] at h
  | n v =>
    cases y with
    | s b => simp [chunkLtb]
    | n w =>
      simp only [chunkLtb, decide_eq_true_eq] at h
      simp only [chunkLtb, decide_eq_false_iff_not]
      omega

theorem keyLtb_asymm {K₁ K₂ : List Chunk} (h : keyLtb K₁ K₂ = true) :
    keyLtb K₂ K₁ = false := by
  induction K₁ generalizing K₂ with
  | nil =>
    cases K₂ with
    | nil => simpa [keyLtb] using h
    | cons b bs => simp [keyLtb]
  | cons a as ih =>
    cases K₂ with
    | nil => simp [keyLtb] at h
    | cons b bs =>
      by_cases hab : a = b
      · subst hab
        simp only [keyLtb, if_pos rfl] at h ⊢
        exact ih h
      · simp only [keyLtb, if_neg hab] at h
        simp only [keyLtb, if_neg (Ne.symm hab)]
        have := chunkLtb_asymm h
        exact this

theorem strLtb_trans {a b c : List Char} (hab : strLtb a b = true)
    (hbc : strLtb b c = true) : strLtb a c = true := by
  induction a generalizing b c with
  | nil =>
    cases c with
    | nil =>
      cases b with
      | nil => simpa [strLtb] using hbc
      | cons y ys => simp [strLtb] at hbc
    | cons z zs => simp [strLtb]
  | cons x xs ih =>
    cases b with
    | nil => simp [strLtb] at hab
    | cons y ys =>
      cases c with
      | nil => simp [strLtb] at hbc
      | cons z zs =>
        by_cases hxy : x = y
        · subst hxy
          simp only [strLtb, if_pos rfl] at hab
          by_cases hyz : x = z
          · subst hyz
            simp only [strLtb, if_pos rfl] at hbc ⊢
            exact ih hab hbc
          · simp only [strLtb, if_neg hyz] at hbc ⊢
            exact hbc
        · simp only [strLtb, if_neg hxy, decide_eq_true_eq] at hab
          by_cases hyz : y = z
          · subst hyz
            simp only [strLtb, if_neg hxy, decide_eq_true_eq]
            exact hab
          · simp only [strLtb, if_neg hyz, decide_eq_true_eq] at hbc
            have hxz : x ≠ z := by
              intro e
              subst e
              omega
            simp only [strLtb, if_neg hxz, decide_eq_true_eq]
            omega

theorem chunkLtb_trans {x y z : Chunk} (hxy : chunkLtb x y = true)
    (hyz : chunkLtb y z = true) : chunkLtb x z = true := by
  cases x with
  | s a =>
    cases y with
    | s b =>
      cases z with
      | s c =>
        simp only [chunkLtb] at *
        exact strLtb_trans hxy hyz
      | n w => simp [chunkLtb] at hyz
    | n w => simp [chunkLtb] at hxy
  | n v =>
    cases z with
    | s c => simp [chunkLtb]
    | n w =>
      cases y with
      | s b => simp [chunkLtb] at hyz
      | n u =>
        simp only [chunkLtb, decide_eq_true_eq] at *
        omega

theorem keyLtb_trans {K₁ K₂ K₃ : List Chunk} (h₁₂ : keyLtb K₁ K₂ = true)
    (h₂₃ : keyLtb K₂ K₃ = true) : keyLtb K₁ K₃ = true := by
  induction K₁ generalizing K₂ K₃ with
  | nil =>
    cases K₃ with
    | nil =>
      cases K₂ with
      | nil => simpa [keyLtb] using h₂₃
      | cons b bs => simp [keyLtb] at h₂₃
    | cons c cs => simp [keyLtb]
  | cons a as ih =>
    cases K₂ with
    | nil => simp [keyLtb] at h₁₂
    | cons b bs =>
      cases K₃ with
      | nil => simp [keyLtb] at h₂₃
      | cons c cs =>
        by_cases hab : a = b
        · subst hab
          simp only [keyLtb, if_pos rfl] at h₁₂
          by_cases hbc : a = c
          · subst hbc
            simp only [keyLtb, if_pos rfl] at h₂₃ ⊢
            exact ih h₁₂ h₂₃
          · simp only [keyLtb, if_neg hbc] at h₂₃ ⊢
            exact h₂₃
        · simp only [keyLtb, if_neg hab] at h₁₂
          by_cases hbc : b = c
          · subst hbc
            simp only [keyLtb, if_neg hab]
            exact h₁₂
          · simp only [keyLtb, if_neg hbc] at h₂₃
            have hac : a ≠ c := by
              intro e
              subst e
              have := chunkLtb_trans h₁₂ h₂₃
              rw [chunkLtb_irrefl] at this
              exact Bool.false_ne_true this
            simp only [keyLtb, if_neg hac]
            exact chunkLtb_trans h₁₂ h₂₃

instance : IsTotal CElem markLe := by
  constructor
  intro a b
  by_cases h : keyLtb (alphanum_key b.mark) (alphanum_key a.mark) = true
  · right
    exact keyLtb_asymm h
  · left
    unfold markLe
    exact Bool.eq_false_iff.mpr h

instance : IsTrans CElem markLe := by
  constructor
  intro a b c hab hbc
  unfold markLe at *
  by_contra h
  have hca : keyLtb (alphanum_key c.mark) (alphanum_key a.mark) = true := by
    cases e : keyLtb (alphanum_key c.mark) (alphanum_key a.mark)
    · exact absurd e h
    · rfl
  rcases keyLtb_trichotomy (alphanum_key b.mark) (alphanum_key c.mark) with hbc' | hcb | hbc'
  · have := keyLtb_trans hbc' hca
    rw [hab] at this
    exact Bool.false_ne_true this
  · rw [hbc] at hcb
    exact Bool.false_ne_true hcb
  · rw [← hbc'] at hca
    rw [hab] at hca
    exact Bool.false_ne_true hca

/-! ### Properties of the two per-item loops -/

theorem rotateLoop_total (items : List RotItem) :
    (rotateLoop items).rotated + (rotateLoop items).skipped +
      (rotateLoop items).failed = items.length := by
  induction items with
  | nil => rfl
  | cons it rest ih =>
    simp only [rotateLoop]
    split_ifs <;> simp only [List.length_cons] <;> omega

theorem rotateLoop_append (xs ys : List RotItem) :
    rotateLoop (xs ++ ys) =
      ⟨(rotateLoop xs).rotated + (rotateLoop ys).rotated,
        (rotateLoop xs).skipped + (rotateLoop ys).skipped,
        (rotateLoop xs).failed + (rotateLoop ys).failed,
        (rotateLoop xs).log ++ (rotateLoop ys).log⟩ := by
  induction xs with
  | nil =>
    cases h : rotateLoop ys with
    | mk a b c l => simp [rotateLoop, h]
  | cons it xs ih =>
    simp only [List.cons_append, rotateLoop]
    split_ifs <;> simp [ih, RotSummary.mk.injEq, List.append_assoc] <;> omega

theorem logFailed_mem_trace (it : RotItem) (hang : it.angle ≠ 0)
    (hr : (it.getRaises || it.setRaises) = true) :
    TxEv.logFailed it.id ∈ assemblyTxTrace it := by
  simp only [assemblyTxTrace, if_neg hang]
  cases hgr : it.getRaises
  · cases hsr : it.setRaises
    · rw [hgr, hsr] at hr
      simp at hr
    · simp
  · simp

theorem rotateLoop_logFailed (items : List RotItem) (it : RotItem)
    (hmem : it ∈ items) (hang : it.angle ≠ 0)
    (hr : (it.getRaises || it.setRaises) = true) :
    TxEv.logFailed it.id ∈ (rotateLoop items).log := by
  induction items with
  | nil => cases hmem
  | cons a rest ih =>
    rcases List.mem_cons.mp hmem with rfl | hmem'
    · simp only [rotateLoop]
      split_ifs with h1 h2 <;>
        first
          | exact absurd h1 hang
          | exact List.mem_append_left _ (logFailed_mem_trace it hang hr)
          | exact absurd hr (by simpa using h2)
    · simp only [rotateLoop]
      split_ifs <;> exact List.mem_append_right _ (ih hmem')

theorem commentsLoopGo_total (pfx : List Char) (elems : List CElem) : ∀ c₀ : Nat,
    (commentsLoopGo pfx c₀ elems).updated +
      (commentsLoopGo pfx c₀ elems).skippedNC.length +
      (commentsLoopGo pfx c₀ elems).failedIds.length = elems.length := by
  induction elems with
  | nil => intro c₀; rfl
  | cons e rest ih =>
    intro c₀
    simp only [commentsLoopGo]
    split_ifs <;> simp only [List.length_cons] <;>
      first
        | (have h := ih c₀; omega)
        | (have h := ih (c₀ + 1); omega)

theorem commentsLoopGo_append (pfx : List Char) (cxs cys : List CElem) : ∀ c₀ : Nat,
    commentsLoopGo pfx c₀ (cxs ++ cys) =
      ⟨(commentsLoopGo pfx (commentsLoopGo pfx c₀ cxs).count cys).count,
        (commentsLoopGo pfx c₀ cxs).updated +
          (commentsLoopGo pfx (commentsLoopGo pfx c₀ cxs).count cys).updated,
        (commentsLoopGo pfx c₀ cxs).skippedNC ++
          (commentsLoopGo pfx (commentsLoopGo pfx c₀ cxs).count cys).skippedNC,
        (commentsLoopGo pfx c₀ cxs).failedIds ++
          (commentsLoopGo pfx (commentsLoopGo pfx c₀ cxs).count cys).failedIds,
        (commentsLoopGo pfx c₀ cxs).writes ++
          (commentsLoopGo pfx (commentsLoopGo pfx c₀ cxs).count cys).writes⟩ := by
  induction cxs with
  | nil =>
    intro c₀
    cases h : commentsLoopGo pfx c₀ cys with
    | mk a b l₁ l₂ l₃ => simp [commentsLoopGo, h]
  | cons e rest ih =>
    intro c₀
    simp only [List.cons_append, commentsLoopGo]
    split_ifs with h1 h2 h3 <;>
      simp [ih c₀, ih (c₀ + 1), CommentsResult.mk.injEq, List.append_assoc] <;> omega

theorem commentsLoopGo_failed_mem (pfx : List Char) (elems : List CElem)
    (e : CElem) (hmem : e ∈ elems)
    (hfail : e.lookupRaises = true ∨
      (e.lookupRaises = false ∧ e.hasComments = true ∧ e.setRaises = true)) :
    ∀ c₀ : Nat, e.id ∈ (commentsLoopGo pfx c₀ elems).failedIds := by
  induction elems with
  | nil => cases hmem
  | cons a rest ih =>
    intro c₀
    rcases List.mem_cons.mp hmem with rfl | hmem'
    · rcases hfail with h | ⟨h1, h2, h3⟩
      · simp [commentsLoopGo, h]
      · simp [commentsLoopGo, h1, h2, h3]
    · simp only [commentsLoopGo]
      split_ifs <;> simp <;>
        first
          | exact Or.inr (ih hmem' c₀)
          | exact Or.inr (ih hmem' (c₀ + 1))
          | exact ih hmem' c₀
          | exact ih hmem' (c₀ + 1)

theorem commentsLoopGo_numbering (pfx : List Char) (elems : List CElem) : ∀ c₀ : Nat,
    ((commentsLoopGo pfx c₀ elems).writes.map Prod.snd =
      (List.range (commentsLoopGo pfx c₀ elems).updated).map
        (fun k => pfx ++ pad3 (c₀ + k))) ∧
    ((commentsLoopGo pfx c₀ elems).count = c₀ + (commentsLoopGo pfx c₀ elems).updated) ∧
    List.Sublist ((commentsLoopGo pfx c₀ elems).writes.map Prod.fst)
      (elems.map CElem.id) := by
  induction elems with
  | nil =>
    intro c₀
    exact ⟨rfl, rfl, List.Sublist.refl _⟩
  | cons e rest ih =>
    intro c₀
    simp only [commentsLoopGo]
    split_ifs with h1 h2 h3
    · obtain ⟨hw, hc, hs⟩ := ih c₀
      exact ⟨hw, hc, List.Sublist.trans hs (by simp)⟩
    · obtain ⟨hw, hc, hs⟩ := ih c₀
      exact ⟨hw, hc, List.Sublist.trans hs (by simp)⟩
    · obtain ⟨hw, hc, hs⟩ := ih c₀
      exact ⟨hw, hc, List.Sublist.trans hs (by simp)⟩
    · obtain ⟨hw, hc, hs⟩ := ih (c₀ + 1)
      refine ⟨?_, ?_, ?_⟩
      · simp only [List.map_cons, hw, List.range_succ_eq_map, List.map_map]
        refine congrArg₂ _ (by simp) ?_
        apply List.map_congr_left
        intro k _
        simp only [Function.comp_apply]
        congr 2
        omega
      · simp only [hc]
        omega
      · simp only [List.map_cons]
        exact List.Sublist.cons₂ _ hs

/-- C6.  In both cited per-item loops an exception while processing one
item is caught inside the loop body, logged with the item's identity,
counted as a failure, and the remaining items are still processed
(counts and logs decompose over list concatenation, and every item is
accounted for); after the rotation loop a summary carrying the success
and failure counts is emitted. -/
theorem perItemLoop_isolation (items xs ys : List RotItem) (it : RotItem)
    (pfx : List Char) (c₀ : Nat) (elems cxs cys : List CElem) (e : CElem) :
    ((rotateLoop items).rotated + (rotateLoop items).skipped +
      (rotateLoop items).failed = items.length) ∧
    ((rotateLoop (xs ++ ys)).rotated = (rotateLoop xs).rotated + (rotateLoop ys).rotated ∧
      (rotateLoop (xs ++ ys)).skipped = (rotateLoop xs).skipped + (rotateLoop ys).skipped ∧
      (rotateLoop (xs ++ ys)).failed = (rotateLoop xs).failed + (rotateLoop ys).failed ∧
      (rotateLoop (xs ++ ys)).log = (rotateLoop xs).log ++ (rotateLoop ys).log) ∧
    (it ∈ items → it.angle ≠ 0 → (it.getRaises || it.setRaises) = true →
      TxEv.logFailed it.id ∈ (rotateLoop items).log) ∧
    ((rotateScriptTrace items).getLast? = some (.summary (rotateLoop items).rotated
      (rotateLoop items).skipped (rotateLoop items).failed)) ∧
    ((commentsLoopGo pfx c₀ elems).updated +
      (commentsLoopGo pfx c₀ elems).skippedNC.length +
      (commentsLoopGo pfx c₀ elems).failedIds.length = elems.length) ∧
    ((commentsLoopGo pfx c₀ (cxs ++ cys)).failedIds =
      (commentsLoopGo pfx c₀ cxs).failedIds ++
        (commentsLoopGo pfx (commentsLoopGo pfx c₀ cxs).count cys).failedIds) ∧
    (e ∈ elems →
      (e.lookupRaises = true ∨
        (e.lookupRaises = false ∧ e.hasComments = true ∧ e.setRaises = true)) →
      e.id ∈ (commentsLoopGo pfx c₀ elems).failedIds) := by
  refine ⟨rotateLoop_total items, ?_, ?_, ?_, commentsLoopGo_total pfx elems c₀, ?_, ?_⟩
  · rw [rotateLoop_append]
    exact ⟨rfl, rfl, rfl, rfl⟩
  · intro hmem hang hr
    exact rotateLoop_logFailed items it hmem hang hr
  · simp [rotateScriptTrace]
  · rw [commentsLoopGo_append]
  · intro hmem hfail
    exact commentsLoopGo_failed_mem pfx elems e hmem hfail c₀

/-- Witness for C6: a two-item run where the first assembly fails and
the second still rotates. -/
theorem perItemLoop_isolation_witness :
    (⟨1, 90, true, false⟩ : RotItem) ∈
        [(⟨1, 90, true, false⟩ : RotItem), ⟨2, 45, false, false⟩] ∧
      TxEv.logFailed 1 ∈
        (rotateLoop [(⟨1, 90, true, false⟩ : RotItem), ⟨2, 45, false, false⟩]).log ∧
      (rotateLoop [(⟨1, 90, true, false⟩ : RotItem), ⟨2, 45, false, false⟩]).rotated +
        (rotateLoop [(⟨1, 90, true, false⟩ : RotItem), ⟨2, 45, false, false⟩]).skipped +
        (rotateLoop [(⟨1, 90, true, false⟩ : RotItem), ⟨2, 45, false, false⟩]).failed = 2 := by
  have h := perItemLoop_isolation
    [(⟨1, 90, true, false⟩ : RotItem), ⟨2, 45, false, false⟩] [] []
    ⟨1, 90, true, false⟩ [] 1 [] [] [] ⟨0, [], true, false, false⟩
  refine ⟨by simp, ?_, h.1⟩
  exact h.2.2.1 (by simp) (by norm_num) rfl

/-- C10.  The numbering counter starts at 1 and advances only on a
successful write: the written Comments values are exactly
`prefix ++ pad3 1, ..., prefix ++ pad3 N` in order, where `N` is the
reported updated count; the writes follow the natural-sort order of the
Mark values (their targets form a subsequence of the sorted element
list, which is sorted under the key order), and skipped or failed
elements consume no number. -/
theorem setComments_numbering (pfx : List Char) (elems : List CElem) :
    ((setCommentValues pfx elems).writes.map Prod.snd =
      (List.range (setCommentValues pfx elems).updated).map
        (fun k => pfx ++ pad3 (k + 1))) ∧
    ((setCommentValues pfx elems).count = (setCommentValues pfx elems).updated + 1) ∧
    List.Sublist ((setCommentValues pfx elems).writes.map Prod.fst)
      ((List.insertionSort markLe elems).map CElem.id) ∧
    List.Pairwise markLe (List.insertionSort markLe elems) ∧
    ((setCommentValues pfx elems).updated +
      (setCommentValues pfx elems).skippedNC.length +
      (setCommentValues pfx elems).failedIds.length = elems.length) := by
  obtain ⟨hw, hc, hs⟩ :=
    commentsLoopGo_numbering pfx (List.insertionSort markLe elems) 1
  refine ⟨?_, ?_, hs, ?_, ?_⟩
  · rw [setCommentValues, commentsLoop] at *
    rw [hw]
    apply List.map_congr_left
    intro k _
    congr 2
    omega
  · rw [setCommentValues, commentsLoop] at *
    omega
  · exact List.sorted_insertionSort markLe elems
  · rw [setCommentValues, commentsLoop]
    rw [commentsLoopGo_total pfx (List.insertionSort markLe elems) 1]
    exact List.Perm.length_eq (List.perm_insertionSort markLe elems)

/-- Witness for C10 on three concrete elements (one failing): values are
prefix001 then prefix002. -/
theorem setComments_numbering_witness :
    ((setCommentValues ['P'] [⟨1, ['a', '2'], true, false, false⟩,
        ⟨2, ['a', '1'], true, false, false⟩,
        ⟨3, ['a', '3'], true, false, true⟩]).writes.map Prod.snd =
      (List.range (setCommentValues ['P'] [⟨1, ['a', '2'], true, false, false⟩,
        ⟨2, ['a', '1'], true, false, false⟩,
        ⟨3, ['a', '3'], true, false, true⟩]).updated).map
        (fun k => ['P'] ++ pad3 (k + 1))) ∧
    ((setCommentValues ['P'] [⟨1, ['a', '2'], true, false, false⟩,
        ⟨2, ['a', '1'], true, false, false⟩,
        ⟨3, ['a', '3'], true, false, true⟩]).updated +
      (setCommentValues ['P'] [⟨1, ['a', '2'], true, false, false⟩,
        ⟨2, ['a', '1'], true, false, false⟩,
        ⟨3, ['a', '3'], true, false, true⟩]).skippedNC.length +
      (setCommentValues ['P'] [⟨1, ['a', '2'], true, false, false⟩,
        ⟨2, ['a', '1'], true, false, false⟩,
        ⟨3, ['a', '3'], true, false, true⟩]).failedIds.length = 3) :=
  ⟨(setComments_numbering ['P'] _).1, (setComments_numbering ['P'] _).2.2.2.2⟩

/-! ## Top-level script flow

Event traces of the two cited scripts, to settle the claimed step order
collect → dialog → validate → transaction → summary.

The Set Mark Values script
(`Automation.tab/.../Comments Value.pushbutton/script.py`) runs:
Step 1 category dialog (exit when cancelled), collect views (alert-exit
when none), Step 2 view dialog (exit when cancelled), Step 3 collect
elements of the category in the view (alert-exit when none), group by
type (alert-exit when no type), Step 3 type dialog (exit when
cancelled), Step 5 Comments text dialog (exit when cancelled), Step 6
collect Mark values (alert-exit when none), then the transaction of
Step 8 and the result summary.

`CreateWalls` in
`BA_Tools.tab/Create.panel/Create Walls.pushbutton/WallFromLine_script.py`
runs after the window (whose constructor collected line types, wall
types and levels) was shown: combo-box checks, then (when splitting is
enabled) the numeric field checks, then the line selection prompt (a
plain return when nothing is selected), then the transaction, then the
summary. -/

/-- Events of a script run. -/
inductive FlowEv where
  | dialog
  | collect
  | check (ok : Bool)
  | exitRun
  | txStart
  | txEnd
  | summary
deriving DecidableEq, Repr

/-- The user inputs and document facts that steer the Set Mark Values
script. -/
structure CommentsFlow where
  catChoice : Bool
  viewsNonempty : Bool
  viewChoice : Bool
  elemsNonempty : Bool
  typesNonempty : Bool
  typeChoice : Bool
  pfxGiven : Bool
  markedNonempty : Bool
deriving DecidableEq, Repr

/-- Event trace of one run of the Set Mark Values script. -/
def commentsScriptTrace (f : CommentsFlow) : List FlowEv :=
  [.dialog] ++
    (if !f.catChoice then [.check false, .exitRun] else
      [.check true, .collect] ++
        (if !f.viewsNonempty then [.check false, .exitRun] else
          [.check true, .dialog] ++
            (if !f.viewChoice then [.check false, .exitRun] else
              [.check true, .collect] ++
                (if !f.elemsNonempty then [.check false, .exitRun] else
                  [.check true] ++
                    (if !f.typesNonempty then [.check false, .exitRun] else
                      [.check true, .dialog] ++
                        (if !f.typeChoice then [.check false, .exitRun] else
                          [.check true, .dialog] ++
                            (if !f.pfxGiven then [.check false, .exitRun] else
                              [.check true, .collect] ++
                                (if !f.markedNonempty then [.check false, .exitRun] else
                                  [.check true, .txStart, .txEnd, .summary]))))))))

/-- The user inputs that steer `CreateWalls`. -/
structure WallFlow where
  lineTypeSel : Bool
  wallTypeSel : Bool
  levelsSel : Bool
  splitEnabled : Bool
  feetValid : Bool
  inchesValid : Bool
  intervalPos : Bool
  gapValid : Bool
  selectionNonempty : Bool
deriving DecidableEq, Repr

/-- Selection prompt, transaction and summary tail of `CreateWalls`. -/
def wallSelectionPart (f : WallFlow) : List FlowEv :=
  [.dialog] ++
    (if !f.selectionNonempty then [.check false, .exitRun] else
      [.check true, .txStart, .txEnd, .summary])

/-- The numeric checks of `CreateWalls` when splitting is enabled. -/
def wallNumericChecks (f : WallFlow) : List FlowEv :=
  if f.splitEnabled then
    (if !f.feetValid then [.check false, .exitRun] else
      [.check true] ++
        (if !f.inchesValid then [.check false, .exitRun] else
          [.check true] ++
            (if !f.intervalPos then [.check false, .exitRun] else
              [.check true] ++
                (if !f.gapValid then [.check false, .exitRun] else
                  [.check true] ++ wallSelectionPart f))))
  else wallSelectionPart f

/-- Event trace of one run of the Create Walls script (window
construction collects the element lists, then the dialog is shown, then
the button handler runs). -/
def wallScriptTrace (f : WallFlow) : List FlowEv :=
  [.collect, .dialog] ++
    (if !f.lineTypeSel then [.check false, .exitRun] else
      [.check true] ++
        (if !f.wallTypeSel then [.check false, .exitRun] else
          [.check true] ++
            (if !f.levelsSel then [.check false, .exitRun] else
              [.check true] ++ wallNumericChecks f)))

/-- The phase a step belongs to in the claimed order
collect → dialog → validate → transaction → summary. -/
def phaseOf : FlowEv → Nat
  | .collect => 0
  | .dialog => 1
  | .check _ => 2
  | .exitRun => 2
  | .txStart => 3
  | .txEnd => 3
  | .summary => 4

/-- Whether a list of phases is monotonically nondecreasing. -/
def monotoneB : List Nat → Bool
  | [] => true
  | [_] => true
  | a :: b :: t => decide (a ≤ b) && monotoneB (b :: t)

/-- A trace follows the claimed strict step order iff its phases never
go back. -/
def claimOrderB (tr : List FlowEv) : Bool := monotoneB (tr.map phaseOf)

/-- Counterexample for C7: in the Set Mark Values script the category
dialog is shown before any element collection, so the claimed order
collect → dialog → validate → transaction → summary is violated even on
a fully successful run. -/
theorem script_order_counterexample :
    claimOrderB (commentsScriptTrace
      ⟨true, true, true, true, true, true, true, true⟩) = false := by
  decide

/-- C7 (amended).  Dialogs, collection and validation steps interleave,
but in both cited scripts no transaction is started unless every
validation succeeded (a transaction-bearing trace contains no failed
check and no early exit, and the transaction is not started before its
final position), and the summary is printed only after the transaction
has ended: every transaction-bearing trace ends with
transaction-start, transaction-end, summary, and a summary is printed
only in transaction-bearing runs. -/
theorem script_order_amended (f : CommentsFlow) (g : WallFlow) :
    (FlowEv.txStart ∈ commentsScriptTrace f →
      FlowEv.exitRun ∉ commentsScriptTrace f ∧
      FlowEv.check false ∉ commentsScriptTrace f ∧
      (commentsScriptTrace f).drop ((commentsScriptTrace f).length - 3) =
        [.txStart, .txEnd, .summary] ∧
      FlowEv.txStart ∉
        (commentsScriptTrace f).take ((commentsScriptTrace f).length - 3)) ∧
    (FlowEv.summary ∈ commentsScriptTrace f → FlowEv.txStart ∈ commentsScriptTrace f) ∧
    (FlowEv.txStart ∈ wallScriptTrace g →
      FlowEv.exitRun ∉ wallScriptTrace g ∧
      FlowEv.check false ∉ wallScriptTrace g ∧
      (wallScriptTrace g).drop ((wallScriptTrace g).length - 3) =
        [.txStart, .txEnd, .summary] ∧
      FlowEv.txStart ∉ (wallScriptTrace g).take ((wallScriptTrace g).length - 3)) ∧
    (FlowEv.summary ∈ wallScriptTrace g → FlowEv.txStart ∈ wallScriptTrace g) := by
  have hc : ∀ f' : CommentsFlow,
      (FlowEv.txStart ∈ commentsScriptTrace f' →
        FlowEv.exitRun ∉ commentsScriptTrace f' ∧
        FlowEv.check false ∉ commentsScriptTrace f' ∧
        (commentsScriptTrace f').drop ((commentsScriptTrace f').length - 3) =
          [.txStart, .txEnd, .summary] ∧
        FlowEv.txStart ∉
          (commentsScriptTrace f').take ((commentsScriptTrace f').length - 3)) ∧
      (FlowEv.summary ∈ commentsScriptTrace f' →
        FlowEv.txStart ∈ commentsScriptTrace f') := by
    intro f'
    obtain ⟨a, b, c, d, e, g', h, i⟩ := f'
    cases a <;> cases b <;> cases c <;> cases d <;> cases e <;> cases g' <;>
      cases h <;> cases i <;> decide
  have hw : ∀ g' : WallFlow,
      (FlowEv.txStart ∈ wallScriptTrace g' →
        FlowEv.exitRun ∉ wallScriptTrace g' ∧
        FlowEv.check false ∉ wallScriptTrace g' ∧
        (wallScriptTrace g').drop ((wallScriptTrace g').length - 3) =
          [.txStart, .txEnd, .summary] ∧
        FlowEv.txStart ∉ (wallScriptTrace g').take ((wallScriptTrace g').length - 3)) ∧
      (FlowEv.summary ∈ wallScriptTrace g' → FlowEv.txStart ∈ wallScriptTrace g') := by
    intro g'
    obtain ⟨a, b, c, d, e, f', h, i, j⟩ := g'
    cases a <;> cases b <;> cases c <;> cases d <;> cases e <;> cases f' <;>
      cases h <;> cases i <;> cases j <;> decide
  exact ⟨(hc f).1, (hc f).2, (hw g).1, (hw g).2⟩

/-- Witness for C7 (amended) on a fully successful run of each script. -/
theorem script_order_amended_witness :
    FlowEv.txStart ∈ commentsScriptTrace
        ⟨true, true, true, true, true, true, true, true⟩ ∧
      FlowEv.exitRun ∉ commentsScriptTrace
        ⟨true, true, true, true, true, true, true, true⟩ ∧
      FlowEv.check false ∉ commentsScriptTrace
        ⟨true, true, true, true, true, true, true, true⟩ ∧
      (commentsScriptTrace ⟨true, true, true, true, true, true, true, true⟩).drop
        ((commentsScriptTrace ⟨true, true, true, true, true, true, true, true⟩).length
          - 3) = [.txStart, .txEnd, .summary] ∧
      FlowEv.txStart ∉
        (commentsScriptTrace ⟨true, true, true, true, true, true, true, true⟩).take
          ((commentsScriptTrace ⟨true, true, true, true, true, true, true, true⟩).length
            - 3) := by
  have h := (script_order_amended ⟨true, true, true, true, true, true, true, true⟩
    ⟨true, true, true, true, true, true, true, true, true⟩).1 (by decide)
  exact ⟨by decide, h⟩

end BATools
